import Mathlib

set_option maxHeartbeats 1000000

/-!
Verification of the dependency-ordered dump engine of pg_dump_sample
(file dump/dump.go), shallowly embedded in Lean.

The embedding mirrors the Go source:

* `ManifestItem`, `Manifest` — the decoded manifest structs.
* `ManifestIterator` — the resolver state (`todo`, `done`, `stack`); the
  Go struct also carries the database handle, which is passed here as an
  explicit oracle argument.
* Go maps are modelled as association lists where insertion conses the new
  binding in front (so lookup, which takes the first match, sees the latest
  binding, exactly like Go map assignment) and `delete` removes every
  binding of the key.
* `Next` is Go's `(*ManifestIterator).Next`.  Go's `Next` calls itself
  recursively; the `fuel` argument bounds that recursion and `none` means
  the call did not finish within `fuel` self-calls (the Go code would
  still be running).
* The database is a pure oracle (`DbOracle`): `deps` models the
  foreign-key query of `getTableDeps`, `cols` the attribute query of
  `getTableCols` (live columns ordered by attribute number, dropped
  columns excluded), `copy` the `db.CopyTo` bulk row export (returning the
  bytes it writes for a given COPY statement), and `render` the
  third-party mustache templating engine.  Each returns `Except` because
  the corresponding Go call can fail.
-/

/-- One entry of the manifest: Go struct `ManifestItem` in dump.go
(fields Table, Query, Columns, PostActions). -/
structure ManifestItem where
  table : String
  query : String
  columns : List String
  postActions : List String
deriving DecidableEq, Repr

/-- The Go zero value `ManifestItem{}` (what a Go map read returns for a
missing key). -/
def zeroItem : ManifestItem := ⟨"", "", [], []⟩

/-- `ManifestItem{Table: dep}` — the synthetic default entry that `Next`
creates for a dependency table absent from the manifest. -/
def defaultItem (t : String) : ManifestItem := ⟨t, "", [], []⟩

/-- Go struct `Manifest` in dump.go (fields Vars, Tables); the vars map is
modelled as an association list. -/
structure Manifest where
  vars : List (String × String)
  tables : List ManifestItem
deriving DecidableEq, Repr

/-- The table names declared by the manifest, in declaration order. -/
def manifestNames (m : Manifest) : List String := m.tables.map (fun i => i.table)

/-- Association-list lookup modelling a Go map read: first (= most
recently inserted) binding wins. -/
def alookup {α : Type} : List (String × α) → String → Option α
  | [], _ => none
  | (k, v) :: rest, key => if k = key then some v else alookup rest key

/-- Association-list deletion modelling Go `delete`: all bindings of the
key are removed. -/
def adelete {α : Type} : List (String × α) → String → List (String × α)
  | [], _ => []
  | (k, v) :: rest, key => if k = key then adelete rest key else (k, v) :: adelete rest key

/-- The resolver state: Go struct `ManifestIterator` (fields todo, done,
stack).  The db and manifest fields of the Go struct are passed separately
(the manifest is only read at construction time). -/
structure ManifestIterator where
  todo : List (String × ManifestItem)
  done : List (String × ManifestItem)
  stack : List String
deriving DecidableEq, Repr

/-- Go `NewManifestIterator`: push every manifest table name (in manifest
order, duplicates kept) and key `todo` by table name (a later duplicate
entry overwrites an earlier one, as Go map assignment does). -/
def NewManifestIterator (m : Manifest) : ManifestIterator :=
  m.tables.foldl
    (fun s item => ⟨(item.table, item) :: s.todo, s.done, s.stack ++ [item.table]⟩)
    ⟨[], [], []⟩

/-- First half of the body of the `for _, dep := range deps` loop of
`Next`: if `dep` is in neither `todo` nor `done`, insert the synthetic
default entry into `todo`. -/
def depsStepTodo (doneL : List (String × ManifestItem))
    (T : List (String × ManifestItem)) (dep : String) : List (String × ManifestItem) :=
  if (alookup T dep).isNone && (alookup doneL dep).isNone
  then (dep, defaultItem dep) :: T else T

/-- Second half of the loop body: if `dep` is in the (possibly just
extended) `todo` and differs from the table being resolved, append it to
the outstanding dependencies `todoDeps`. -/
def depsStepOut (doneL : List (String × ManifestItem)) (table : String)
    (T : List (String × ManifestItem)) (D : List String) (dep : String) : List String :=
  if (alookup (depsStepTodo doneL T dep) dep).isSome && table ≠ dep then D ++ [dep] else D

/-- The body of the `for _, dep := range deps` loop of `Next`, acting on
the accumulator (current `todo` map, current `todoDeps` list). -/
def depsStep (doneL : List (String × ManifestItem)) (table : String)
    (acc : List (String × ManifestItem) × List String) (dep : String) :
    List (String × ManifestItem) × List String :=
  (depsStepTodo doneL acc.1 dep, depsStepOut doneL table acc.1 acc.2 dep)

/-- Go `(*ManifestIterator).Next`.  One evaluation with `fuel = n`
performs at most `n` of Go's recursive `Next` calls; `none` means the Go
call would still be running after `n` self-calls.  `some (.error e)` is
the `nil, err` return on a failed dependency query, `some (.ok (none, s))`
the `nil, nil` end-of-sequence return, and `some (.ok (some v, s))` a
resolved entry. -/
def Next (deps : String → Except String (List String)) :
    Nat → ManifestIterator → Option (Except String (Option ManifestItem × ManifestIterator))
  | 0, _ => none
  | fuel+1, s =>
    match s.stack with
    | [] => some (.ok (none, s))
    | table :: rest =>
      if (alookup s.todo table).isSome then
        match deps table with
        | .error e => some (.error e)
        | .ok ds =>
          let acc := ds.foldl (depsStep s.done table) (s.todo, [])
          if acc.2.isEmpty then
            let result := (alookup acc.1 table).getD zeroItem
            some (.ok (some result, ⟨adelete acc.1 table, (table, result) :: s.done, rest⟩))
          else
            Next deps fuel ⟨acc.1, s.done, acc.2 ++ table :: rest⟩
      else
        Next deps fuel ⟨s.todo, s.done, rest⟩

/-- The database/templating capabilities consumed by the dump writer,
as pure oracles.  `deps t` is the foreign-key query of `getTableDeps`
(`SELECT confrelid::regclass FROM pg_constraint WHERE conrelid = t AND
contype = 'f'`), `cols t` the attribute query of `getTableCols`
(`attname FROM pg_attribute WHERE attrelid = t AND attnum > 0 AND
attisdropped = FALSE ORDER BY attnum` — live columns by physical
attribute number, dropped columns excluded), `copy sql` the bytes that
`db.CopyTo(w, sql)` streams to the writer, and `render t vars` the
third-party `mustache.Render` call. -/
structure DbOracle where
  deps : String → Except String (List String)
  cols : String → Except String (List String)
  copy : String → Except String String
  render : String → List (String × String) → Except String String

/-- Successive calls to `Next` until the end-of-sequence signal, collecting
the emitted items and the final resolver state (the `for` loop of
`MakeDump`, restricted to the resolver).  `none` again means fuel ran
out before the Go program would have finished. -/
def runNext (deps : String → Except String (List String)) :
    Nat → ManifestIterator → Option (Except String (List ManifestItem × ManifestIterator))
  | 0, _ => none
  | fuel+1, s =>
    match Next deps (fuel+1) s with
    | none => none
    | some (.error e) => some (.error e)
    | some (.ok (none, s1)) => some (.ok ([], s1))
    | some (.ok (some v, s1)) =>
      match runNext deps fuel s1 with
      | none => none
      | some (.error e) => some (.error e)
      | some (.ok (l, sf)) => some (.ok (v :: l, sf))

/-- The Go constant `BEGIN_DUMP` (raw string literal, dump.go lines 17-33),
written with the dump preamble before the first table. -/
def BEGIN_DUMP : String :=
  "\n--\n-- PostgreSQL database dump\n--\n\nBEGIN;\n\nSET statement_timeout = 0;\nSET lock_timeout = 0;\nSET client_encoding = 'UTF8';\nSET standard_conforming_strings = on;\nSET check_function_bodies = false;\nSET client_min_messages = warning;\n\nSET search_path = public, pg_catalog;\n\n"

/-- The Go constant `END_DUMP` (dump.go lines 35-41), written after the
last table. -/
def END_DUMP : String :=
  "\nCOMMIT;\n\n--\n-- PostgreSQL database dump complete\n--\n"

/-- The Go constant `END_TABLE_DUMP`: a backslash, a dot and a newline. -/
def END_TABLE_DUMP : String := "\\.\n"

/-- Go `dumpSqlCmd`: `fmt.Fprintf(w, "\n%s;\n", v)`. -/
def sqlCmdStr (v : String) : String := "\n" ++ v ++ ";\n"

/-- A hexadecimal digit as Go's strconv uses them (lower case). -/
def hexDigit (n : Nat) : Char :=
  if n < 10 then Char.ofNat (48 + n) else Char.ofNat (87 + n)

/-- One character of Go `strconv.Quote`'s output: quote and backslash are
backslash-escaped, the ASCII control characters get their Go escapes, and
other characters are emitted verbatim (for characters at and above space
other than DEL this matches Go, which escapes only non-printable runes;
column names are SQL identifiers, which are printable). -/
def quoteChar (c : Char) : List Char :=
  if c = '"' then ['\\', '"']
  else if c = '\\' then ['\\', '\\']
  else if c = Char.ofNat 7 then ['\\', 'a']
  else if c = Char.ofNat 8 then ['\\', 'b']
  else if c = Char.ofNat 12 then ['\\', 'f']
  else if c = '\n' then ['\\', 'n']
  else if c = Char.ofNat 13 then ['\\', 'r']
  else if c = '\t' then ['\\', 't']
  else if c = Char.ofNat 11 then ['\\', 'v']
  else if 32 ≤ c.toNat ∧ c.toNat ≠ 127 then [c]
  else ['\\', 'x', hexDigit (c.toNat / 16 % 16), hexDigit (c.toNat % 16)]

/-- Go `strconv.Quote`: the argument surrounded by double quotes, with
characters escaped per `quoteChar`. -/
def goQuote (s : String) : String :=
  "\"" ++ String.mk ((s.toList.map quoteChar).flatten) ++ "\""

/-- The quoted, comma-joined column list built by Go `beginTable`
(`strconv.Quote` each column, `strings.Join(quoted, ", ")`). -/
def colStr (columns : List String) : String :=
  String.intercalate ", " (columns.map goQuote)

/-- Go `beginTable`: `fmt.Fprintf(w, BEGIN_TABLE_DUMP, table, table,
colstr)` with the raw-string format of dump.go lines 43-49. -/
def beginTableStr (table : String) (columns : List String) : String :=
  "\n--\n-- Data for Name: " ++ table ++ "; Type: TABLE DATA\n--\n\nCOPY "
    ++ table ++ " (" ++ colStr columns ++ ") FROM stdin;\n"

/-- Go `dumpTable`: build `COPY <table> TO STDOUT` and hand it to
`db.CopyTo`, whose output bytes the oracle returns. -/
def dumpTable (db : DbOracle) (table : String) : Except String String :=
  db.copy ("COPY " ++ table ++ " TO STDOUT")

/-- The data bytes of one entry: Go `MakeDump`'s per-entry branch — plain
`dumpTable` when the query is empty, otherwise `mustache.Render` the query
with the manifest vars and dump the derived relation `"(" + query + ")"`. -/
def entryBody (db : DbOracle) (vars : List (String × String)) (v : ManifestItem) :
    Except String String :=
  if v.query = "" then dumpTable db v.table
  else
    match db.render v.query vars with
    | .error e => .error e
    | .ok q => dumpTable db ("(" ++ q ++ ")")

/-- One iteration of Go `MakeDump`'s loop after `Next` returned entry `v`:
resolve the columns (the manifest's list if non-empty, otherwise
`getTableCols`), emit the data-block header, the streamed rows, the
terminator, and the post-action statements; the first failing stage's
error is returned. -/
def dumpEntry (db : DbOracle) (vars : List (String × String)) (v : ManifestItem) :
    Except String String :=
  match (if v.columns.isEmpty then db.cols v.table else Except.ok v.columns) with
  | .error e => .error e
  | .ok cols =>
    match entryBody db vars v with
    | .error e => .error e
    | .ok body =>
      .ok (beginTableStr v.table cols ++ body ++ END_TABLE_DUMP
            ++ String.join (v.postActions.map sqlCmdStr))

/-- Go `MakeDump`'s loop: drive the resolver, emitting one block per
entry; stops with the first error, or with the concatenation of all
blocks at end-of-sequence. -/
def dumpLoop (db : DbOracle) (vars : List (String × String)) :
    Nat → ManifestIterator → Option (Except String String)
  | 0, _ => none
  | fuel+1, s =>
    match Next db.deps (fuel+1) s with
    | none => none
    | some (.error e) => some (.error e)
    | some (.ok (none, _)) => some (.ok "")
    | some (.ok (some v, s1)) =>
      match dumpEntry db vars v with
      | .error e => some (.error e)
      | .ok block =>
        match dumpLoop db vars fuel s1 with
        | none => none
        | some (.error e) => some (.error e)
        | some (.ok restOut) => some (.ok (block ++ restOut))

/-- Go `MakeDump`: the preamble, then the per-entry loop, then the
postamble; the first error aborts the run and is returned unchanged. -/
def MakeDump (db : DbOracle) (m : Manifest) (fuel : Nat) : Option (Except String String) :=
  match dumpLoop db m.vars fuel (NewManifestIterator m) with
  | none => none
  | some (.error e) => some (.error e)
  | some (.ok body) => some (.ok (BEGIN_DUMP ++ body ++ END_DUMP))

/-- An opening curly brace. -/
def lcurly : Char := Char.ofNat 123

/-- A closing curly brace. -/
def rcurly : Char := Char.ofNat 125

/-- Scanner mode of the modelled templating engine: plain text, or inside
a variable tag (accumulated tag characters kept reversed). -/
inductive MustMode where
  | text : MustMode
  | tag : List Char → MustMode

/-- Modelled from the spec: the templating capability (the third-party
mustache engine consumed by `MakeDump`, not code of this repository) —
"simple name→value text substitution": a double-curly variable tag is
replaced by the named manifest var (missing vars render empty, the
engine's default). -/
def mgo (vars : List (String × String)) : MustMode → List Char → List Char
  | .text, [] => []
  | .text, c1 :: rest =>
    if c1 = lcurly then
      match rest with
      | c2 :: rest2 =>
        if c2 = lcurly then mgo vars (.tag []) rest2
        else c1 :: mgo vars .text (c2 :: rest2)
      | [] => [c1]
    else c1 :: mgo vars .text rest
  | .tag acc, [] => lcurly :: lcurly :: acc.reverse
  | .tag acc, c1 :: rest =>
    if c1 = rcurly then
      match rest with
      | c2 :: rest2 =>
        if c2 = rcurly then
          ((alookup vars (String.mk acc.reverse)).getD "").toList ++ mgo vars .text rest2
        else mgo vars (.tag (c1 :: acc)) (c2 :: rest2)
      | [] => lcurly :: lcurly :: (acc.reverse ++ [c1])
    else mgo vars (.tag (c1 :: acc)) rest

/-- Modelled from the spec: `mustache.Render` as simple name→value text
substitution (see `mgo`). -/
def mustacheRender (template : String) (vars : List (String × String)) : String :=
  String.mk (mgo vars .text template.toList)

/-- A database oracle whose `render` behaves as the modelled substitution
engine. -/
def RendersLikeMustache (db : DbOracle) : Prop :=
  ∀ t vs, db.render t vs = .ok (mustacheRender t vs)

/-- Table names reachable from a set of roots along the foreign-key edges
reported by the schema inspector. -/
inductive Reachable (deps : String → Except String (List String)) (roots : List String) :
    String → Prop
  | root (t : String) : t ∈ roots → Reachable deps roots t
  | step (t : String) (ds : List String) (d : String) :
      Reachable deps roots t → deps t = .ok ds → d ∈ ds → Reachable deps roots d

/-- A table name is in at most one of `todo` and `done`. -/
def DisjointTD (s : ManifestIterator) : Prop :=
  ∀ k, (alookup s.todo k).isSome → (alookup s.done k).isSome → False

/-- The manifest item the resolver associates with a table name: the last
manifest entry bearing that name (later duplicates overwrite earlier ones
in the keyed `todo` map), or the synthetic default entry for a name the
manifest does not declare. -/
def expectedItem (m : Manifest) (k : String) : ManifestItem :=
  ((m.tables.filter (fun i => decide (i.table = k))).getLast?).getD (defaultItem k)

/-- The resolver-state invariant: every `todo`/`done` binding carries the
item `expectedItem` prescribes for its key, `todo` and `done` are
disjoint, every declared manifest name is in one of them, and every
`todo` key still has an occurrence on the pending stack. -/
def IterInv (m : Manifest) (s : ManifestIterator) : Prop :=
  (∀ k v, alookup s.todo k = some v → v = expectedItem m k) ∧
  (∀ k v, alookup s.done k = some v → v = expectedItem m k) ∧
  DisjointTD s ∧
  (∀ n, n ∈ manifestNames m → ((alookup s.todo n).isSome ∨ (alookup s.done n).isSome)) ∧
  (∀ k, (alookup s.todo k).isSome → k ∈ s.stack)

/-- The elements of an emitted sequence bearing a given table name. -/
def tableEntries (seq : List ManifestItem) (n : String) : List ManifestItem :=
  seq.filter (fun v => decide (v.table = n))

/-- `Next` never finishes from this state, whatever the step bound. -/
def NextDiverges (deps : String → Except String (List String)) (s : ManifestIterator) : Prop :=
  ∀ fuel, Next deps fuel s = none

/-- A two-table mutual foreign-key cycle: table A references B and B
references A. -/
def cycDeps : String → Except String (List String) := fun t =>
  if t = "A" then .ok ["B"] else if t = "B" then .ok ["A"] else .ok []

/-- A manifest listing the two mutually referencing tables. -/
def cycManifest : Manifest := ⟨[], [defaultItem "A", defaultItem "B"]⟩

/-- A concrete acyclic schema: `posts` references `users`, nothing else
references anything. -/
def exDeps : String → Except String (List String) := fun t =>
  if t = "posts" then .ok ["users"] else .ok []

/-- A manifest declaring only `posts`; `users` is reachable but absent. -/
def exManifest : Manifest := ⟨[], [⟨"posts", "q1", ["id"], ["a1"]⟩]⟩

/-- A manifest with two entries for the same table name. -/
def dupManifest : Manifest :=
  ⟨[], [⟨"users", "old", ["a"], []⟩, ⟨"users", "new", ["b"], ["p"]⟩]⟩

/-- A database oracle every call of which succeeds trivially. -/
def trivialDb : DbOracle :=
  ⟨fun _ => .ok [], fun _ => .ok [], fun _ => .ok "", fun t _ => .ok t⟩

/-- `h` is a ranking of the foreign-key graph: every reported dependency
edge (other than a self-reference) strictly decreases `h`.  A finite
dependency graph admits a ranking exactly when it is acyclic, so this is
the acyclicity hypothesis of the spec. -/
def Ranked (deps : String → Except String (List String)) (h : String → Nat) : Prop :=
  ∀ t ds d, deps t = .ok ds → d ∈ ds → d ≠ t → h d < h t

/-- `U` lists the tables of the schema: the inspector succeeds on each of
them and reports dependencies inside `U` (in a real database the set of
tables is finite and foreign keys point at tables). -/
def UClosed (deps : String → Except String (List String)) (U : List String) : Prop :=
  ∀ t, t ∈ U → ∃ ds, deps t = .ok ds ∧ ∀ d, d ∈ ds → d ∈ U

/-- Every table name the resolver state mentions lies in `U`. -/
def WithinU (U : List String) (s : ManifestIterator) : Prop :=
  (∀ t, t ∈ s.stack → t ∈ U) ∧
  (∀ k, (alookup s.todo k).isSome → k ∈ U) ∧
  (∀ k, (alookup s.done k).isSome → k ∈ U)

/-- Every `todo` binding carries its key as its table name (manifest
entries are keyed by their own table, synthetic entries by construction). -/
def TodoKeysOk (s : ManifestIterator) : Prop :=
  ∀ k v, alookup s.todo k = some v → v.table = k

/-! ### Association-list lemmas -/

theorem alookup_cons {α : Type} (k : String) (v : α) (m : List (String × α)) (key : String) :
    alookup ((k, v) :: m) key = if k = key then some v else alookup m key := rfl

theorem alookup_nil {α : Type} (key : String) : alookup ([] : List (String × α)) key = none := rfl

theorem alookup_adelete {α : Type} (m : List (String × α)) (k key : String) :
    alookup (adelete m k) key = if k = key then none else alookup m key := by
  induction m with
  | nil => simp [adelete, alookup]
  | cons hd tl ih =>
    obtain ⟨k', v⟩ := hd
    by_cases h1 : k' = k
    · subst h1
      rw [adelete, if_pos rfl, ih, alookup_cons]
      by_cases h2 : k' = key
      · subst h2; simp
      · simp [h2]
    · rw [adelete, if_neg h1, alookup_cons, alookup_cons]
      by_cases h2 : k' = key
      · subst h2
        have : ¬ k = k' := fun h => h1 h.symm
        simp [this]
      · simp [h2, ih]

theorem isSome_of_eq_some {α : Type} {o : Option α} {v : α} (h : o = some v) : o.isSome := by
  subst h; rfl

theorem eq_none_of_not_isSome {α : Type} {o : Option α} (h : ¬ o.isSome) : o = none :=
  Option.not_isSome_iff_eq_none.mp h

/-! ### Lemmas about the dependency-expansion fold of `Next` -/

theorem depsStep_pair (doneL : List (String × ManifestItem)) (table : String)
    (T : List (String × ManifestItem)) (D : List String) (dep : String) :
    depsStep doneL table (T, D) dep = (depsStepTodo doneL T dep, depsStepOut doneL table T D dep) :=
  rfl

theorem depsStepTodo_lookup_mono {doneL T : List (String × ManifestItem)} {dep k : String}
    {v : ManifestItem} (hv : alookup T k = some v) :
    alookup (depsStepTodo doneL T dep) k = some v := by
  unfold depsStepTodo
  split
  · next hcond =>
    rw [alookup_cons]
    split
    · next heq =>
      subst heq
      simp only [Bool.and_eq_true, Option.isNone_iff_eq_none] at hcond
      rw [hcond.1] at hv
      exact absurd hv (by simp)
    · exact hv
  · exact hv

theorem depsStepTodo_lookup_new {doneL T : List (String × ManifestItem)} {dep k : String}
    {v : ManifestItem} (hv : alookup (depsStepTodo doneL T dep) k = some v) :
    alookup T k = some v ∨
      (k = dep ∧ alookup T k = none ∧ alookup doneL k = none ∧ v = defaultItem k) := by
  revert hv
  unfold depsStepTodo
  split
  · next hcond =>
    rw [alookup_cons]
    split
    · next heq =>
      subst heq
      intro hv
      simp only [Bool.and_eq_true, Option.isNone_iff_eq_none] at hcond
      exact Or.inr ⟨rfl, hcond.1, hcond.2, (Option.some.inj hv).symm⟩
    · exact fun hv => Or.inl hv
  · exact fun hv => Or.inl hv

/-- Bindings of the running `todo` map survive the dependency fold. -/
theorem fold_lookup_mono (doneL : List (String × ManifestItem)) (table : String) :
    ∀ (ds : List String) (T : List (String × ManifestItem)) (D : List String)
      (k : String) (v : ManifestItem), alookup T k = some v →
      alookup (ds.foldl (depsStep doneL table) (T, D)).1 k = some v := by
  intro ds
  induction ds with
  | nil => intro T D k v hv; simpa using hv
  | cons dep ds ih =>
    intro T D k v hv
    rw [List.foldl_cons, depsStep_pair]
    exact ih _ _ _ _ (depsStepTodo_lookup_mono hv)

theorem fold_isSome_mono (doneL : List (String × ManifestItem)) (table : String)
    (ds : List String) (T : List (String × ManifestItem)) (D : List String)
    (k : String) (h : (alookup T k).isSome) :
    (alookup (ds.foldl (depsStep doneL table) (T, D)).1 k).isSome := by
  obtain ⟨v, hv⟩ := Option.isSome_iff_exists.mp h
  exact isSome_of_eq_some (fold_lookup_mono doneL table ds T D k v hv)

/-- Any binding of the fold's result is either an original binding or the
synthetic default entry of a dependency that was in neither `todo` nor
`done`. -/
theorem fold_lookup_new (doneL : List (String × ManifestItem)) (table : String) :
    ∀ (ds : List String) (T : List (String × ManifestItem)) (D : List String)
      (k : String) (v : ManifestItem),
      alookup (ds.foldl (depsStep doneL table) (T, D)).1 k = some v →
      alookup T k = some v ∨
        (alookup T k = none ∧ alookup doneL k = none ∧ v = defaultItem k ∧ k ∈ ds) := by
  intro ds
  induction ds with
  | nil => intro T D k v hv; exact Or.inl (by simpa using hv)
  | cons dep ds ih =>
    intro T D k v hv
    rw [List.foldl_cons, depsStep_pair] at hv
    rcases ih _ _ _ _ hv with h1 | ⟨h1, h2, h3, h4⟩
    · rcases depsStepTodo_lookup_new h1 with h2 | ⟨heq, h2, h3, h4⟩
      · exact Or.inl h2
      · exact Or.inr ⟨h2, h3, h4, heq ▸ List.mem_cons_self _ _⟩
    · have h1' : alookup T k = none := by
        rcases h5 : alookup T k with _ | w
        · rfl
        · rw [depsStepTodo_lookup_mono h5] at h1
          exact absurd h1 (by simp)
      exact Or.inr ⟨h1', h2, h3, List.mem_cons_of_mem _ h4⟩

/-- Outstanding dependencies already collected survive the rest of the
fold. -/
theorem fold_out_mono (doneL : List (String × ManifestItem)) (table : String) :
    ∀ (ds : List String) (T : List (String × ManifestItem)) (D : List String)
      (d : String), d ∈ D → d ∈ (ds.foldl (depsStep doneL table) (T, D)).2 := by
  intro ds
  induction ds with
  | nil => intro T D d hd; simpa using hd
  | cons dep ds ih =>
    intro T D d hd
    rw [List.foldl_cons, depsStep_pair]
    apply ih
    unfold depsStepOut
    split
    · exact List.mem_append_left _ hd
    · exact hd

/-- Every collected outstanding dependency is a reported dependency of the
table being resolved and differs from it. -/
theorem fold_out_spec (doneL : List (String × ManifestItem)) (table : String) :
    ∀ (ds : List String) (T : List (String × ManifestItem)) (D : List String)
      (d : String), d ∈ (ds.foldl (depsStep doneL table) (T, D)).2 →
      d ∈ D ∨ (d ∈ ds ∧ table ≠ d) := by
  intro ds
  induction ds with
  | nil => intro T D d hd; exact Or.inl (by simpa using hd)
  | cons dep ds ih =>
    intro T D d hd
    rw [List.foldl_cons, depsStep_pair] at hd
    rcases ih _ _ _ hd with h1 | ⟨h1, h2⟩
    · revert h1
      unfold depsStepOut
      split
      · next hcond =>
        intro h1
        rcases List.mem_append.mp h1 with h2 | h2
        · exact Or.inl h2
        · simp only [Bool.and_eq_true, decide_eq_true_eq] at hcond
          have : d = dep := by simpa using h2
          subst this
          exact Or.inr ⟨List.mem_cons_self _ _, hcond.2⟩
      · exact fun h1 => Or.inl h1
    · exact Or.inr ⟨List.mem_cons_of_mem _ h1, h2⟩

/-- Every collected outstanding dependency has a `todo` binding in the
fold's final map (it was in `todo` when collected, and bindings only
accumulate). -/
theorem fold_out_isSome (doneL : List (String × ManifestItem)) (table : String) :
    ∀ (ds : List String) (T : List (String × ManifestItem)) (D : List String),
      (∀ d, d ∈ D → (alookup T d).isSome) →
      ∀ d, d ∈ (ds.foldl (depsStep doneL table) (T, D)).2 →
      (alookup (ds.foldl (depsStep doneL table) (T, D)).1 d).isSome := by
  intro ds
  induction ds with
  | nil => intro T D hD d hd; exact hD d (by simpa using hd)
  | cons dep ds ih =>
    intro T D hD d hd
    rw [List.foldl_cons, depsStep_pair] at hd ⊢
    refine ih _ _ ?_ d hd
    intro d' hd'
    revert hd'
    unfold depsStepOut
    split
    · next hcond =>
      intro hd'
      rcases List.mem_append.mp hd' with h2 | h2
      · obtain ⟨w, hw⟩ := Option.isSome_iff_exists.mp (hD d' h2)
        exact isSome_of_eq_some (depsStepTodo_lookup_mono hw)
      · have : d' = dep := by simpa using h2
        subst this
        simp only [Bool.and_eq_true] at hcond
        exact hcond.1
    · intro hd'
      obtain ⟨w, hw⟩ := Option.isSome_iff_exists.mp (hD d' hd')
      exact isSome_of_eq_some (depsStepTodo_lookup_mono hw)

/-- When the fold collects no outstanding dependency, it also adds no
synthetic entry, and every reported dependency other than the table
itself is settled: absent from `todo` and present in `done`. -/
theorem fold_out_nil (doneL : List (String × ManifestItem)) (table : String) :
    ∀ (ds : List String) (T : List (String × ManifestItem)),
      (alookup T table).isSome →
      (ds.foldl (depsStep doneL table) (T, [])).2 = [] →
      (ds.foldl (depsStep doneL table) (T, [])).1 = T ∧
        ∀ d, d ∈ ds → d ≠ table → (alookup T d = none ∧ (alookup doneL d).isSome) := by
  intro ds
  induction ds with
  | nil => intro T _ _; exact ⟨rfl, by simp⟩
  | cons dep ds ih =>
    intro T htab hnil
    rw [List.foldl_cons, depsStep_pair] at hnil ⊢
    have hD1 : depsStepOut doneL table T [] dep = [] := by
      rcases h : depsStepOut doneL table T [] dep with _ | ⟨x, xs⟩
      · rfl
      · have hx : x ∈ (ds.foldl (depsStep doneL table) (depsStepTodo doneL T dep, x :: xs)).2 :=
          fold_out_mono doneL table ds _ _ x (List.mem_cons_self _ _)
        rw [h] at hnil
        rw [hnil] at hx
        exact absurd hx (List.not_mem_nil _)
    have hcond : ¬ ((alookup (depsStepTodo doneL T dep) dep).isSome ∧ table ≠ dep) := by
      intro hc
      unfold depsStepOut at hD1
      rw [if_pos (by simp [hc.1, hc.2])] at hD1
      simp at hD1
    by_cases hdt : dep = table
    · subst hdt
      have hT1 : depsStepTodo doneL T dep = T := by
        unfold depsStepTodo
        rw [if_neg]
        simp only [Bool.and_eq_true, Option.isNone_iff_eq_none]
        intro hc
        rw [hc.1] at htab
        exact absurd htab (by simp)
      rw [hT1, hD1] at hnil ⊢
      obtain ⟨h1, h2⟩ := ih T htab hnil
      refine ⟨h1, ?_⟩
      intro d hd hne
      rcases List.mem_cons.mp hd with rfl | hd
      · exact absurd rfl hne
      · exact h2 d hd hne
    · have hnotsome : ¬ (alookup (depsStepTodo doneL T dep) dep).isSome := by
        intro hc
        exact hcond ⟨hc, fun h => hdt h.symm⟩
      have hT1 : depsStepTodo doneL T dep = T := by
        unfold depsStepTodo
        split
        · next hc =>
          exfalso
          apply hnotsome
          unfold depsStepTodo
          rw [if_pos hc, alookup_cons, if_pos rfl]
          rfl
        · rfl
      have hTdep : alookup T dep = none := by
        rw [hT1] at hnotsome
        exact eq_none_of_not_isSome hnotsome
      have hdone : (alookup doneL dep).isSome := by
        by_contra hc
        have hdn : alookup doneL dep = none := eq_none_of_not_isSome hc
        have : depsStepTodo doneL T dep = (dep, defaultItem dep) :: T := by
          unfold depsStepTodo
          rw [if_pos (by simp [hTdep, hdn])]
        rw [this] at hnotsome
        apply hnotsome
        rw [alookup_cons, if_pos rfl]
        rfl
      rw [hT1, hD1] at hnil ⊢
      obtain ⟨h1, h2⟩ := ih T htab hnil
      refine ⟨h1, ?_⟩
      intro d hd hne
      rcases List.mem_cons.mp hd with rfl | hd
      · exact ⟨hTdep, hdone⟩
      · exact h2 d hd hne

/-! ### `expectedItem` and initial-state lemmas -/

theorem getLast?_mem {α : Type} {l : List α} {a : α} (h : l.getLast? = some a) : a ∈ l := by
  obtain ⟨hne, rfl⟩ := List.mem_getLast?_eq_getLast (Option.mem_def.mpr h)
  exact List.getLast_mem hne

theorem expectedItem_table (m : Manifest) (k : String) : (expectedItem m k).table = k := by
  unfold expectedItem
  rcases h : (m.tables.filter (fun i => decide (i.table = k))).getLast? with _ | it
  · rw [h]; rfl
  · rw [h]
    have hmem : it ∈ m.tables.filter (fun i => decide (i.table = k)) := getLast?_mem h
    have := List.of_mem_filter hmem
    simpa using this

theorem expectedItem_not_mem (m : Manifest) (k : String) (h : k ∉ manifestNames m) :
    expectedItem m k = defaultItem k := by
  unfold expectedItem
  have hfil : m.tables.filter (fun i => decide (i.table = k)) = [] := by
    rw [List.filter_eq_nil_iff]
    intro a ha hpa
    exact h (List.mem_map.mpr ⟨a, ha, by simpa using hpa⟩)
  rw [hfil]
  rfl

theorem expectedItem_mem_some (m : Manifest) (n : String) (h : n ∈ manifestNames m) :
    (m.tables.filter (fun i => decide (i.table = n))).getLast? = some (expectedItem m n) := by
  obtain ⟨a, ha, hta⟩ := List.mem_map.mp h
  have hmem : a ∈ m.tables.filter (fun i => decide (i.table = n)) :=
    List.mem_filter.mpr ⟨ha, by simpa using hta⟩
  have hne : m.tables.filter (fun i => decide (i.table = n)) ≠ [] := by
    intro hc; rw [hc] at hmem; exact absurd hmem (List.not_mem_nil _)
  rcases hl : (m.tables.filter (fun i => decide (i.table = n))).getLast? with _ | it
  · exact absurd (List.getLast?_eq_none_iff.mp hl) hne
  · unfold expectedItem
    rw [hl]
    rfl

theorem NMI_fold_done (ts : List ManifestItem) :
    ∀ s0 : ManifestIterator,
      (ts.foldl (fun s item =>
        ⟨(item.table, item) :: s.todo, s.done, s.stack ++ [item.table]⟩) s0).done = s0.done := by
  induction ts with
  | nil => intro s0; rfl
  | cons t ts ih => intro s0; rw [List.foldl_cons, ih]

theorem NMI_fold_stack (ts : List ManifestItem) :
    ∀ s0 : ManifestIterator,
      (ts.foldl (fun s item =>
        ⟨(item.table, item) :: s.todo, s.done, s.stack ++ [item.table]⟩) s0).stack =
      s0.stack ++ ts.map (fun i => i.table) := by
  induction ts with
  | nil => intro s0; simp
  | cons t ts ih =>
    intro s0
    rw [List.foldl_cons, ih]
    simp

theorem NMI_fold_todo (ts : List ManifestItem) :
    ∀ (s0 : ManifestIterator) (k : String),
      alookup (ts.foldl (fun s item =>
        ⟨(item.table, item) :: s.todo, s.done, s.stack ++ [item.table]⟩) s0).todo k =
      (match (ts.filter (fun i => decide (i.table = k))).getLast? with
       | some it => some it
       | none => alookup s0.todo k) := by
  induction ts with
  | nil => intro s0 k; rfl
  | cons t ts ih =>
    intro s0 k
    rw [List.foldl_cons, ih]
    by_cases ht : t.table = k
    · rw [List.filter_cons_of_pos (by simpa using ht)]
      rcases hfil : ts.filter (fun i => decide (i.table = k)) with _ | ⟨x, xs⟩
      · rw [hfil]
        show alookup ((t.table, t) :: s0.todo) k = some t
        rw [alookup_cons, if_pos ht]
      · rw [hfil, List.getLast?_cons_cons]
        rw [List.getLast?_eq_getLast_of_ne_nil (List.cons_ne_nil x xs)]
    · rw [List.filter_cons_of_neg (by simpa using ht)]
      cases hget : (ts.filter (fun i => decide (i.table = k))).getLast? with
      | some it => rfl
      | none =>
        show alookup ((t.table, t) :: s0.todo) k = alookup s0.todo k
        rw [alookup_cons, if_neg ht]

theorem NMI_done (m : Manifest) : (NewManifestIterator m).done = [] :=
  NMI_fold_done m.tables ⟨[], [], []⟩

theorem NMI_stack (m : Manifest) : (NewManifestIterator m).stack = manifestNames m := by
  have := NMI_fold_stack m.tables ⟨[], [], []⟩
  simpa [manifestNames] using this

theorem NMI_todo (m : Manifest) (k : String) :
    alookup (NewManifestIterator m).todo k =
      (m.tables.filter (fun i => decide (i.table = k))).getLast? := by
  have h := NMI_fold_todo m.tables ⟨[], [], []⟩ k
  unfold NewManifestIterator
  rw [h]
  cases hget : (m.tables.filter (fun i => decide (i.table = k))).getLast? with
  | none => rfl
  | some it => rfl

theorem IterInv_init (m : Manifest) : IterInv m (NewManifestIterator m) := by
  refine ⟨?_, ?_, ?_, ?_, ?_⟩
  · intro k v hv
    rw [NMI_todo] at hv
    unfold expectedItem
    rw [hv]
    rfl
  · intro k v hv
    rw [NMI_done] at hv
    exact absurd hv (by simp [alookup])
  · intro k h1 h2
    rw [NMI_done] at h2
    exact absurd h2 (by simp [alookup])
  · intro n hn
    left
    rw [NMI_todo, expectedItem_mem_some m n hn]
    rfl
  · intro k hk
    rw [NMI_todo] at hk
    obtain ⟨it, hit⟩ := Option.isSome_iff_exists.mp hk
    have hmem := getLast?_mem hit
    have h1 := List.mem_of_mem_filter hmem
    have h2 := List.of_mem_filter hmem
    rw [NMI_stack]
    exact List.mem_map.mpr ⟨it, h1, by simpa using h2⟩

/-! ### Unfolding equations for `Next` -/

theorem Next_nil (deps : String → Except String (List String)) (fuel : Nat)
    (s : ManifestIterator) (h : s.stack = []) :
    Next deps (fuel+1) s = some (.ok (none, s)) := by
  simp only [Next, h]

theorem Next_skip (deps : String → Except String (List String)) (fuel : Nat)
    (s : ManifestIterator) (table : String) (rest : List String)
    (h : s.stack = table :: rest) (ht : ¬ (alookup s.todo table).isSome) :
    Next deps (fuel+1) s = Next deps fuel ⟨s.todo, s.done, rest⟩ := by
  simp only [Next, h]
  rw [if_neg ht]

theorem Next_err (deps : String → Except String (List String)) (fuel : Nat)
    (s : ManifestIterator) (table : String) (rest : List String) (e : String)
    (h : s.stack = table :: rest) (ht : (alookup s.todo table).isSome)
    (hd : deps table = .error e) :
    Next deps (fuel+1) s = some (.error e) := by
  simp only [Next, h, ht, if_true, hd]

theorem Next_push (deps : String → Except String (List String)) (fuel : Nat)
    (s : ManifestIterator) (table : String) (rest : List String) (ds : List String)
    (h : s.stack = table :: rest) (ht : (alookup s.todo table).isSome)
    (hd : deps table = .ok ds)
    (hne : ¬ (ds.foldl (depsStep s.done table) (s.todo, [])).2.isEmpty) :
    Next deps (fuel+1) s =
      Next deps fuel ⟨(ds.foldl (depsStep s.done table) (s.todo, [])).1, s.done,
        (ds.foldl (depsStep s.done table) (s.todo, [])).2 ++ table :: rest⟩ := by
  simp only [Next, h, ht, if_true, hd]
  rw [if_neg hne]

theorem Next_emit (deps : String → Except String (List String)) (fuel : Nat)
    (s : ManifestIterator) (table : String) (rest : List String) (ds : List String)
    (h : s.stack = table :: rest) (ht : (alookup s.todo table).isSome)
    (hd : deps table = .ok ds)
    (he : (ds.foldl (depsStep s.done table) (s.todo, [])).2.isEmpty) :
    Next deps (fuel+1) s =
      some (.ok (some ((alookup (ds.foldl (depsStep s.done table) (s.todo, [])).1 table).getD zeroItem),
        ⟨adelete (ds.foldl (depsStep s.done table) (s.todo, [])).1 table,
         (table, (alookup (ds.foldl (depsStep s.done table) (s.todo, [])).1 table).getD zeroItem) :: s.done,
         rest⟩)) := by
  simp only [Next, h, ht, if_true, hd]
  rw [if_pos he]

/-- A key that enters the `todo` map during the fold is collected as an
outstanding dependency. -/
theorem fold_new_out (doneL : List (String × ManifestItem)) (table : String) :
    ∀ (ds : List String) (T : List (String × ManifestItem)) (D : List String) (k : String),
      (alookup T table).isSome → alookup T k = none →
      (alookup (ds.foldl (depsStep doneL table) (T, D)).1 k).isSome →
      k ∈ (ds.foldl (depsStep doneL table) (T, D)).2 := by
  intro ds
  induction ds with
  | nil =>
    intro T D k htab hk hsome
    simp only [List.foldl_nil] at hsome
    rw [hk] at hsome
    exact absurd hsome (by simp)
  | cons dep ds ih =>
    intro T D k htab hk hsome
    rw [List.foldl_cons, depsStep_pair] at hsome ⊢
    rcases h1 : alookup (depsStepTodo doneL T dep) k with _ | w
    · exact ih _ _ k (isSome_of_eq_some (depsStepTodo_lookup_mono
        (Option.isSome_iff_exists.mp htab).choose_spec)) h1 hsome
    · rcases depsStepTodo_lookup_new h1 with h2 | ⟨heq, h2, h3, h4⟩
      · rw [hk] at h2
        exact absurd h2 (by simp)
      · subst heq
        have hne : table ≠ k := by
          intro hc
          rw [hc, hk] at htab
          exact absurd htab (by simp)
        have hmem : k ∈ depsStepOut doneL table T D k := by
          unfold depsStepOut
          rw [if_pos]
          · exact List.mem_append_right _ (List.mem_cons_self _ _)
          · simp only [Bool.and_eq_true, decide_eq_true_eq]
            exact ⟨isSome_of_eq_some h1, hne⟩
        exact fold_out_mono doneL table ds _ _ k hmem

/-- What one successful `Next` call does to an invariant-satisfying
resolver state: the invariant is preserved, `done` only grows, the
end-of-sequence return leaves `done` untouched with an empty stack and an
exhausted `todo`, and an emission returns the item prescribed for its
table, moves exactly that table into `done`, and happens only once every
reported dependency other than the table itself is already in `done`. -/
theorem Next_ok_spec (deps : String → Except String (List String)) (m : Manifest) :
    ∀ (fuel : Nat) (s : ManifestIterator) (r : Option ManifestItem) (s' : ManifestIterator),
      IterInv m s → Next deps fuel s = some (.ok (r, s')) →
      IterInv m s' ∧
      (∀ k v, alookup s.done k = some v → alookup s'.done k = some v) ∧
      (r = none → s'.stack = [] ∧ s'.done = s.done ∧ ∀ k, alookup s'.todo k = none) ∧
      (∀ v, r = some v →
        v = expectedItem m v.table ∧
        alookup s.done v.table = none ∧
        s'.done = (v.table, v) :: s.done ∧
        ∃ ds, deps v.table = .ok ds ∧
          ∀ d, d ∈ ds → d ≠ v.table → (alookup s.done d).isSome) := by
  intro fuel
  induction fuel with
  | zero =>
    intro s r s' _ hnext
    exact absurd hnext (by simp [Next])
  | succ fuel ih =>
    intro s r s' hinv hnext
    obtain ⟨A1t, A1d, A2, A3, A4⟩ := hinv
    rcases hstk : s.stack with _ | ⟨table, rest⟩
    · rw [Next_nil deps fuel s hstk] at hnext
      simp only [Option.some.injEq, Except.ok.injEq, Prod.mk.injEq] at hnext
      obtain ⟨hr, hs⟩ := hnext
      subst hr
      subst hs
      refine ⟨⟨A1t, A1d, A2, A3, A4⟩, fun k v hv => hv, fun _ => ⟨hstk, rfl, ?_⟩,
        fun v hv => absurd hv (by simp)⟩
      intro k
      refine eq_none_of_not_isSome (fun hk => ?_)
      have hm := A4 k hk
      rw [hstk] at hm
      exact absurd hm (List.not_mem_nil k)
    · by_cases htodo : (alookup s.todo table).isSome
      · rcases hdeps : deps table with e | ds
        · rw [Next_err deps fuel s table rest e hstk htodo hdeps] at hnext
          exact absurd hnext (by simp)
        · by_cases hemp : (ds.foldl (depsStep s.done table) (s.todo, [])).2.isEmpty
          · -- emission: no outstanding dependencies remain
            rw [Next_emit deps fuel s table rest ds hstk htodo hdeps hemp] at hnext
            have hnil : (ds.foldl (depsStep s.done table) (s.todo, [])).2 = [] := by
              simpa using hemp
            obtain ⟨hfold1, hsettled⟩ := fold_out_nil s.done table ds s.todo htodo hnil
            obtain ⟨v0, hv0⟩ := Option.isSome_iff_exists.mp htodo
            rw [hfold1, hv0] at hnext
            simp only [Option.getD_some, Option.some.injEq, Except.ok.injEq,
              Prod.mk.injEq] at hnext
            obtain ⟨hr, hs⟩ := hnext
            subst hr
            subst hs
            have hvexp : v0 = expectedItem m table := A1t table v0 hv0
            have htabeq : v0.table = table := by rw [hvexp]; exact expectedItem_table m table
            have hdonenone : alookup s.done table = none :=
              eq_none_of_not_isSome (fun hd => A2 table htodo hd)
            refine ⟨⟨?_, ?_, ?_, ?_, ?_⟩, ?_, ?_, ?_⟩
            · intro k w hw
              rw [show (⟨adelete s.todo table, (table, v0) :: s.done, rest⟩ :
                ManifestIterator).todo = adelete s.todo table from rfl,
                alookup_adelete] at hw
              by_cases hk : table = k
              · rw [if_pos hk] at hw
                exact absurd hw (by simp)
              · rw [if_neg hk] at hw
                exact A1t k w hw
            · intro k w hw
              rw [show (⟨adelete s.todo table, (table, v0) :: s.done, rest⟩ :
                ManifestIterator).done = (table, v0) :: s.done from rfl, alookup_cons] at hw
              by_cases hk : table = k
              · rw [if_pos hk] at hw
                rw [← (Option.some.inj hw), ← hk]
                exact hvexp
              · rw [if_neg hk] at hw
                exact A1d k w hw
            · intro k h1 h2
              rw [show (⟨adelete s.todo table, (table, v0) :: s.done, rest⟩ :
                ManifestIterator).todo = adelete s.todo table from rfl,
                alookup_adelete] at h1
              rw [show (⟨adelete s.todo table, (table, v0) :: s.done, rest⟩ :
                ManifestIterator).done = (table, v0) :: s.done from rfl, alookup_cons] at h2
              by_cases hk : table = k
              · rw [if_pos hk] at h1
                exact absurd h1 (by simp)
              · rw [if_neg hk] at h1
                rw [if_neg hk] at h2
                exact A2 k h1 h2
            · intro n hn
              rw [show (⟨adelete s.todo table, (table, v0) :: s.done, rest⟩ :
                ManifestIterator).todo = adelete s.todo table from rfl]
              rw [show (⟨adelete s.todo table, (table, v0) :: s.done, rest⟩ :
                ManifestIterator).done = (table, v0) :: s.done from rfl]
              rw [alookup_adelete, alookup_cons]
              by_cases hk : table = n
              · right; rw [if_pos hk]; rfl
              · rcases A3 n hn with h | h
                · left; rw [if_neg hk]; exact h
                · right; rw [if_neg hk]; exact h
            · intro k hk
              rw [show (⟨adelete s.todo table, (table, v0) :: s.done, rest⟩ :
                ManifestIterator).todo = adelete s.todo table from rfl,
                alookup_adelete] at hk
              by_cases hkt : table = k
              · rw [if_pos hkt] at hk
                exact absurd hk (by simp)
              · rw [if_neg hkt] at hk
                have hm := A4 k hk
                rw [hstk] at hm
                rcases List.mem_cons.mp hm with rfl | hm
                · exact absurd rfl hkt
                · exact hm
            · intro k w hw
              rw [show (⟨adelete s.todo table, (table, v0) :: s.done, rest⟩ :
                ManifestIterator).done = (table, v0) :: s.done from rfl, alookup_cons]
              by_cases hk : table = k
              · rw [← hk] at hw
                rw [hdonenone] at hw
                exact absurd hw (by simp)
              · rw [if_neg hk]
                exact hw
            · intro hr
              exact absurd hr (by simp)
            · intro v hv
              have hveq : v = v0 := (Option.some.inj hv).symm
              subst hveq
              rw [htabeq]
              refine ⟨hvexp, hdonenone, rfl, ds, hdeps, ?_⟩
              intro d hd hdt
              exact (hsettled d hd hdt).2
          · -- outstanding dependencies: push them and retry
            rw [Next_push deps fuel s table rest ds hstk htodo hdeps hemp] at hnext
            have hinv2 : IterInv m ⟨(ds.foldl (depsStep s.done table) (s.todo, [])).1, s.done,
                (ds.foldl (depsStep s.done table) (s.todo, [])).2 ++ table :: rest⟩ := by
              refine ⟨?_, A1d, ?_, ?_, ?_⟩
              · intro k w hw
                rcases fold_lookup_new s.done table ds s.todo [] k w hw with h1 | ⟨h1, h2, h3, _⟩
                · exact A1t k w h1
                · have hknames : k ∉ manifestNames m := by
                    intro hc
                    rcases A3 k hc with h | h
                    · rw [h1] at h; exact absurd h (by simp)
                    · rw [h2] at h; exact absurd h (by simp)
                  rw [h3, expectedItem_not_mem m k hknames]
              · intro k h1 h2
                obtain ⟨w, hw⟩ := Option.isSome_iff_exists.mp h1
                rcases fold_lookup_new s.done table ds s.todo [] k w hw with h3 | ⟨_, h3, _, _⟩
                · exact A2 k (isSome_of_eq_some h3) h2
                · rw [h3] at h2; exact absurd h2 (by simp)
              · intro n hn
                rcases A3 n hn with h | h
                · exact Or.inl (fold_isSome_mono s.done table ds s.todo [] n h)
                · exact Or.inr h
              · intro k hk
                by_cases horig : (alookup s.todo k).isSome
                · have hm := A4 k horig
                  rw [hstk] at hm
                  exact List.mem_append_right _ hm
                · have hnone : alookup s.todo k = none := eq_none_of_not_isSome horig
                  exact List.mem_append_left _
                    (fold_new_out s.done table ds s.todo [] k htodo hnone hk)
            obtain ⟨h1, h2, h3, h4⟩ := ih _ r s' hinv2 hnext
            exact ⟨h1, h2, h3, h4⟩
      · rw [Next_skip deps fuel s table rest hstk htodo] at hnext
        have hinv1 : IterInv m ⟨s.todo, s.done, rest⟩ := by
          refine ⟨A1t, A1d, A2, A3, ?_⟩
          intro k hk
          have hm := A4 k hk
          rw [hstk] at hm
          rcases List.mem_cons.mp hm with rfl | hm
          · exact absurd hk htodo
          · exact hm
        obtain ⟨h1, h2, h3, h4⟩ := ih _ r s' hinv1 hnext
        exact ⟨h1, h2, h3, h4⟩

/-- What a completed sequence of `Next` calls guarantees, starting from
any invariant-satisfying state: the final state is exhausted, `done`
accumulates exactly the emitted tables, every emitted item is the one
prescribed for its table, no table is emitted twice, every reported
dependency of an emitted table was emitted (or already done) strictly
earlier, and the final `done` is dependency-closed on the emitted
tables. -/
theorem runNext_ok_spec (deps : String → Except String (List String)) (m : Manifest) :
    ∀ (fuel : Nat) (s : ManifestIterator) (seq : List ManifestItem) (sf : ManifestIterator),
      IterInv m s → runNext deps fuel s = some (.ok (seq, sf)) →
      IterInv m sf ∧
      sf.stack = [] ∧
      (∀ k, alookup sf.todo k = none) ∧
      (∀ k v, alookup s.done k = some v → alookup sf.done k = some v) ∧
      (∀ k, (alookup sf.done k).isSome ↔
        ((alookup s.done k).isSome ∨ k ∈ seq.map (fun v => v.table))) ∧
      (∀ v, v ∈ seq → v = expectedItem m v.table) ∧
      (∀ n, n ∈ seq.map (fun v => v.table) → alookup s.done n = none) ∧
      (seq.map (fun v => v.table)).Nodup ∧
      (∀ (j : Nat) (hj : j < seq.length) (ds : List String) (d : String),
        deps (seq.get ⟨j, hj⟩).table = .ok ds → d ∈ ds → d ≠ (seq.get ⟨j, hj⟩).table →
        (alookup s.done d).isSome ∨
          ∃ (i : Nat) (hi : i < seq.length), i < j ∧ (seq.get ⟨i, hi⟩).table = d) ∧
      (∀ v, v ∈ seq → ∃ ds, deps v.table = .ok ds ∧
        ∀ d, d ∈ ds → (alookup sf.done d).isSome) := by
  intro fuel
  induction fuel with
  | zero =>
    intro s seq sf _ hrun
    exact absurd hrun (by simp [runNext])
  | succ fuel ih =>
    intro s seq sf hinv hrun
    rw [runNext] at hrun
    rcases hnext : Next deps (fuel+1) s with _ | r
    · rw [hnext] at hrun
      exact absurd hrun (by simp)
    · rcases r with e | ⟨ov, s1⟩
      · rw [hnext] at hrun
        exact absurd hrun (by simp)
      · rcases ov with _ | v
        · -- end of sequence
          rw [hnext] at hrun
          simp only [Option.some.injEq, Except.ok.injEq, Prod.mk.injEq] at hrun
          obtain ⟨hseq, hsf⟩ := hrun
          subst hseq
          subst hsf
          obtain ⟨hinv1, hmono, hend, _⟩ := Next_ok_spec deps m (fuel+1) s none s1 hinv hnext
          obtain ⟨hstk1, hdone1, htodo1⟩ := hend rfl
          refine ⟨hinv1, hstk1, htodo1, hmono, ?_, by simp, by simp, by simp, ?_, by simp⟩
          · intro k
            rw [hdone1]
            simp
          · intro j hj
            exact absurd hj (by simp)
        · -- an item was emitted
          rw [hnext] at hrun
          have hrun' : (match runNext deps fuel s1 with
              | none => none
              | some (Except.error e) => some (Except.error e)
              | some (Except.ok (l, sf2)) => some (Except.ok (v :: l, sf2))) =
              some (Except.ok (seq, sf)) := hrun
          clear hrun
          rcases hrun2 : runNext deps fuel s1 with _ | r2
          · rw [hrun2] at hrun'
            exact absurd hrun' (by simp)
          · rcases r2 with e | ⟨l, sf'⟩
            · rw [hrun2] at hrun'
              exact absurd hrun' (by simp)
            · rw [hrun2] at hrun'
              simp only [Option.some.injEq, Except.ok.injEq, Prod.mk.injEq] at hrun'
              obtain ⟨hseq, hsf⟩ := hrun'
              subst hseq
              subst hsf
              obtain ⟨hinv1, hmono1, _, hsome⟩ :=
                Next_ok_spec deps m (fuel+1) s (some v) s1 hinv hnext
              obtain ⟨hvexp, hvfresh, hdcons, dsv, hdsv, hdsdone⟩ := hsome v rfl
              obtain ⟨hinvf, hstkf, htodof, hmono2, hchar2, hcont2, hfresh2, hnodup2,
                htopo2, hclos2⟩ := ih s1 l sf' hinv1 hrun2
              have hvtab_s1 : alookup s1.done v.table = some v := by
                rw [hdcons, alookup_cons, if_pos rfl]
              have hmono1' : ∀ k w, alookup s.done k = some w → alookup s1.done k = some w := by
                intro k w hw
                rw [hdcons, alookup_cons]
                by_cases hk : v.table = k
                · rw [← hk] at hw
                  rw [hvfresh] at hw
                  exact absurd hw (by simp)
                · rw [if_neg hk]
                  exact hw
              have hs1char : ∀ k, (alookup s1.done k).isSome ↔
                  (k = v.table ∨ (alookup s.done k).isSome) := by
                intro k
                rw [hdcons, alookup_cons]
                constructor
                · intro h
                  by_cases hk : v.table = k
                  · exact Or.inl hk.symm
                  · rw [if_neg hk] at h
                    exact Or.inr h
                · intro h
                  rcases h with rfl | h
                  · rw [if_pos rfl]; rfl
                  · by_cases hk : v.table = k
                    · rw [if_pos hk]; rfl
                    · rw [if_neg hk]; exact h
              refine ⟨hinvf, hstkf, htodof, ?_, ?_, ?_, ?_, ?_, ?_, ?_⟩
              · intro k w hw
                exact hmono2 k w (hmono1' k w hw)
              · intro k
                rw [hchar2 k, hs1char k]
                simp only [List.map_cons, List.mem_cons]
                constructor
                · rintro ((rfl | h) | h)
                  · exact Or.inr (Or.inl rfl)
                  · exact Or.inl h
                  · exact Or.inr (Or.inr h)
                · rintro (h | (rfl | h))
                  · exact Or.inl (Or.inr h)
                  · exact Or.inl (Or.inl rfl)
                  · exact Or.inr h
              · intro w hw
                rcases List.mem_cons.mp hw with rfl | hw
                · exact hvexp
                · exact hcont2 w hw
              · intro n hn
                simp only [List.map_cons, List.mem_cons] at hn
                rcases hn with rfl | hn
                · exact hvfresh
                · have h1 := hfresh2 n hn
                  refine eq_none_of_not_isSome (fun hc => ?_)
                  obtain ⟨w, hw⟩ := Option.isSome_iff_exists.mp hc
                  rw [hmono1' n w hw] at h1
                  exact absurd h1 (by simp)
              · simp only [List.map_cons]
                rw [List.nodup_cons]
                refine ⟨?_, hnodup2⟩
                intro hc
                have h1 := hfresh2 v.table hc
                rw [hvtab_s1] at h1
                exact absurd h1 (by simp)
              · intro j hj ds d hds hd hdne
                rcases j with _ | j'
                · have hget : ((v :: l).get ⟨0, hj⟩) = v := rfl
                  rw [hget] at hds hdne
                  have hok : ds = dsv := by
                    rw [hds] at hdsv
                    exact Except.ok.inj hdsv
                  subst hok
                  exact Or.inl (hdsdone d hd hdne)
                · have hj' : j' < l.length := by simpa using hj
                  have hget : ((v :: l).get ⟨j'+1, hj⟩) = l.get ⟨j', hj'⟩ := rfl
                  rw [hget] at hds hdne
                  rcases htopo2 j' hj' ds d hds hd hdne with h | ⟨i', hi', hlt, heq⟩
                  · rw [hs1char d] at h
                    rcases h with rfl | h
                    · refine Or.inr ⟨0, by simp, by omega, rfl⟩
                    · exact Or.inl h
                  · refine Or.inr ⟨i'+1, by simpa using hi', by omega, heq⟩
              · intro w hw
                rcases List.mem_cons.mp hw with rfl | hw
                · refine ⟨dsv, hdsv, ?_⟩
                  intro d hd
                  by_cases hdv : d = w.table
                  · rw [hdv]
                    exact isSome_of_eq_some (hmono2 _ _ hvtab_s1)
                  · obtain ⟨u, hu⟩ := Option.isSome_iff_exists.mp (hdsdone d hd hdv)
                    exact isSome_of_eq_some (hmono2 d u (hmono1' d u hu))
                · exact hclos2 w hw

/-! ### Unfolding equations for `runNext` and fuel monotonicity -/

theorem runNext_fuelout (deps : String → Except String (List String)) (fuel : Nat)
    (s : ManifestIterator) (h : Next deps (fuel+1) s = none) :
    runNext deps (fuel+1) s = none := by
  rw [runNext, h]

theorem runNext_err (deps : String → Except String (List String)) (fuel : Nat)
    (s : ManifestIterator) (e : String) (h : Next deps (fuel+1) s = some (.error e)) :
    runNext deps (fuel+1) s = some (.error e) := by
  rw [runNext, h]

theorem runNext_end (deps : String → Except String (List String)) (fuel : Nat)
    (s s1 : ManifestIterator) (h : Next deps (fuel+1) s = some (.ok (none, s1))) :
    runNext deps (fuel+1) s = some (.ok ([], s1)) := by
  rw [runNext, h]

theorem runNext_step (deps : String → Except String (List String)) (fuel : Nat)
    (s s1 : ManifestIterator) (v : ManifestItem)
    (h : Next deps (fuel+1) s = some (.ok (some v, s1))) :
    runNext deps (fuel+1) s =
      (match runNext deps fuel s1 with
       | none => none
       | some (Except.error e) => some (Except.error e)
       | some (Except.ok (l, sf)) => some (Except.ok (v :: l, sf))) := by
  rw [runNext, h]

/-- `Next` is monotone in its fuel: once it finishes, more fuel returns
the same answer. -/
theorem Next_mono (deps : String → Except String (List String)) :
    ∀ (fuel fuel' : Nat) (s : ManifestIterator) (r : Except String (Option ManifestItem × ManifestIterator)),
      Next deps fuel s = some r → fuel ≤ fuel' → Next deps fuel' s = some r := by
  intro fuel
  induction fuel with
  | zero =>
    intro fuel' s r hr _
    exact absurd hr (by simp [Next])
  | succ fuel ih =>
    intro fuel' s r hr hle
    obtain ⟨fuel'', rfl⟩ : ∃ k, fuel' = k + 1 := ⟨fuel' - 1, by omega⟩
    have hle' : fuel ≤ fuel'' := by omega
    rcases hstk : s.stack with _ | ⟨table, rest⟩
    · rw [Next_nil deps fuel s hstk] at hr
      rw [Next_nil deps fuel'' s hstk]
      exact hr
    · by_cases htodo : (alookup s.todo table).isSome
      · rcases hdeps : deps table with e | ds
        · rw [Next_err deps fuel s table rest e hstk htodo hdeps] at hr
          rw [Next_err deps fuel'' s table rest e hstk htodo hdeps]
          exact hr
        · by_cases hemp : (ds.foldl (depsStep s.done table) (s.todo, [])).2.isEmpty
          · rw [Next_emit deps fuel s table rest ds hstk htodo hdeps hemp] at hr
            rw [Next_emit deps fuel'' s table rest ds hstk htodo hdeps hemp]
            exact hr
          · rw [Next_push deps fuel s table rest ds hstk htodo hdeps hemp] at hr
            rw [Next_push deps fuel'' s table rest ds hstk htodo hdeps hemp]
            exact ih fuel'' _ r hr hle'
      · rw [Next_skip deps fuel s table rest hstk htodo] at hr
        rw [Next_skip deps fuel'' s table rest hstk htodo]
        exact ih fuel'' _ r hr hle'

/-- `runNext` is monotone in its fuel. -/
theorem runNext_mono (deps : String → Except String (List String)) :
    ∀ (fuel fuel' : Nat) (s : ManifestIterator) (r : Except String (List ManifestItem × ManifestIterator)),
      runNext deps fuel s = some r → fuel ≤ fuel' → runNext deps fuel' s = some r := by
  intro fuel
  induction fuel with
  | zero =>
    intro fuel' s r hr _
    exact absurd hr (by simp [runNext])
  | succ fuel ih =>
    intro fuel' s r hr hle
    obtain ⟨fuel'', rfl⟩ : ∃ k, fuel' = k + 1 := ⟨fuel' - 1, by omega⟩
    have hle' : fuel ≤ fuel'' := by omega
    rcases hnext : Next deps (fuel+1) s with _ | r1
    · rw [runNext_fuelout deps fuel s hnext] at hr
      exact absurd hr (by simp)
    · have hnext' : Next deps (fuel''+1) s = some r1 :=
        Next_mono deps (fuel+1) (fuel''+1) s r1 hnext (by omega)
      rcases r1 with e | ⟨ov, s1⟩
      · rw [runNext_err deps fuel s e hnext] at hr
        rw [runNext_err deps fuel'' s e hnext']
        exact hr
      · rcases ov with _ | v
        · rw [runNext_end deps fuel s s1 hnext] at hr
          rw [runNext_end deps fuel'' s s1 hnext']
          exact hr
        · rw [runNext_step deps fuel s s1 v hnext] at hr
          rw [runNext_step deps fuel'' s s1 v hnext']
          rcases hrun2 : runNext deps fuel s1 with _ | r2
          · rw [hrun2] at hr
            exact absurd hr (by simp)
          · rw [hrun2] at hr
            rw [ih fuel'' s1 r2 hrun2 hle']
            exact hr

/-! ### Termination of the resolver on ranked (acyclic) schemas -/

/-- One `Next` call terminates when the head of the stack is an
unresolved table: each dependency push strictly lowers the rank of the
head. -/
theorem Next_term_aux (deps : String → Except String (List String)) (h : String → Nat)
    (hrank : Ranked deps h) :
    ∀ (n : Nat) (s : ManifestIterator) (table : String) (rest : List String),
      s.stack = table :: rest → (alookup s.todo table).isSome → h table < n →
      ∃ fuel r, Next deps fuel s = some r := by
  intro n
  induction n with
  | zero =>
    intro s table rest _ _ hlt
    exact absurd hlt (by omega)
  | succ n ih =>
    intro s table rest hstk htodo hlt
    rcases hdeps : deps table with e | ds
    · exact ⟨1, .error e, Next_err deps 0 s table rest e hstk htodo hdeps⟩
    · by_cases hemp : (ds.foldl (depsStep s.done table) (s.todo, [])).2.isEmpty
      · exact ⟨1, _, Next_emit deps 0 s table rest ds hstk htodo hdeps hemp⟩
      · rcases hd2 : (ds.foldl (depsStep s.done table) (s.todo, [])).2 with _ | ⟨d1, D⟩
        · exact absurd (by rw [hd2]; rfl) hemp
        · have hd1mem : d1 ∈ (ds.foldl (depsStep s.done table) (s.todo, [])).2 := by
            rw [hd2]; exact List.mem_cons_self _ _
          have hspec : d1 ∈ ds ∧ table ≠ d1 := by
            rcases fold_out_spec s.done table ds s.todo [] d1 hd1mem with h1 | h1
            · exact absurd h1 (List.not_mem_nil _)
            · exact h1
          have hd1some : (alookup (ds.foldl (depsStep s.done table) (s.todo, [])).1 d1).isSome :=
            fold_out_isSome s.done table ds s.todo []
              (fun d hd => absurd hd (List.not_mem_nil _)) d1 hd1mem
          have hd1lt : h d1 < h table :=
            hrank table ds d1 hdeps hspec.1 (fun hc => hspec.2 hc.symm)
          have hstk2 : (⟨(ds.foldl (depsStep s.done table) (s.todo, [])).1, s.done,
              (ds.foldl (depsStep s.done table) (s.todo, [])).2 ++ table :: rest⟩ :
              ManifestIterator).stack = d1 :: (D ++ table :: rest) := by
            show (ds.foldl (depsStep s.done table) (s.todo, [])).2 ++ table :: rest =
              d1 :: (D ++ table :: rest)
            rw [hd2]
            rfl
          obtain ⟨fuel, r, hr⟩ := ih _ d1 (D ++ table :: rest) hstk2 hd1some (by omega)
          refine ⟨fuel+1, r, ?_⟩
          rw [Next_push deps fuel s table rest ds hstk htodo hdeps hemp]
          exact hr

/-- Under a ranking of the dependency graph, every `Next` call terminates
(with an answer or an error). -/
theorem Next_term (deps : String → Except String (List String)) (h : String → Nat)
    (hrank : Ranked deps h) :
    ∀ (stk : List String) (s : ManifestIterator), s.stack = stk →
      ∃ fuel r, Next deps fuel s = some r := by
  intro stk
  induction stk with
  | nil =>
    intro s hstk
    exact ⟨1, .ok (none, s), Next_nil deps 0 s hstk⟩
  | cons table rest ih =>
    intro s hstk
    by_cases htodo : (alookup s.todo table).isSome
    · exact Next_term_aux deps h hrank (h table + 1) s table rest hstk htodo (by omega)
    · obtain ⟨fuel, r, hr⟩ := ih ⟨s.todo, s.done, rest⟩ rfl
      refine ⟨fuel+1, r, ?_⟩
      rw [Next_skip deps fuel s table rest hstk htodo]
      exact hr

/-- On a `U`-closed schema every finishing `Next` call stays inside `U`
and returns an answer (never an error). -/
theorem Next_withinU (deps : String → Except String (List String)) (U : List String)
    (hU : UClosed deps U) :
    ∀ (fuel : Nat) (s : ManifestIterator)
      (r : Except String (Option ManifestItem × ManifestIterator)),
      WithinU U s → TodoKeysOk s → Next deps fuel s = some r →
      ∃ ov s', r = .ok (ov, s') ∧ WithinU U s' ∧ TodoKeysOk s' ∧
        (∀ v, ov = some v → v.table ∈ U) := by
  intro fuel
  induction fuel with
  | zero =>
    intro s r _ _ hr
    exact absurd hr (by simp [Next])
  | succ fuel ih =>
    intro s r hin hkeys hr
    obtain ⟨hstkU, htodoU, hdoneU⟩ := hin
    rcases hstk : s.stack with _ | ⟨table, rest⟩
    · rw [Next_nil deps fuel s hstk] at hr
      exact ⟨none, s, (Option.some.inj hr).symm, ⟨hstkU, htodoU, hdoneU⟩, hkeys,
        fun v hv => absurd hv (by simp)⟩
    · have htabU : table ∈ U := hstkU table (by rw [hstk]; exact List.mem_cons_self _ _)
      by_cases htodo : (alookup s.todo table).isSome
      · obtain ⟨ds0, hds0, hds0U⟩ := hU table htabU
        by_cases hemp : (ds0.foldl (depsStep s.done table) (s.todo, [])).2.isEmpty
        · rw [Next_emit deps fuel s table rest ds0 hstk htodo hds0 hemp] at hr
          obtain ⟨hfold1, _⟩ := fold_out_nil s.done table ds0 s.todo htodo (by simpa using hemp)
          obtain ⟨v0, hv0⟩ := Option.isSome_iff_exists.mp htodo
          rw [hfold1, hv0] at hr
          simp only [Option.getD_some] at hr
          refine ⟨some v0, ⟨adelete s.todo table, (table, v0) :: s.done, rest⟩,
            (Option.some.inj hr).symm, ⟨?_, ?_, ?_⟩, ?_, ?_⟩
          · intro t ht
            have : t ∈ s.stack := by rw [hstk]; exact List.mem_cons_of_mem _ ht
            exact hstkU t this
          · intro k hk
            rw [show (⟨adelete s.todo table, (table, v0) :: s.done, rest⟩ :
              ManifestIterator).todo = adelete s.todo table from rfl, alookup_adelete] at hk
            by_cases hkt : table = k
            · rw [if_pos hkt] at hk
              exact absurd hk (by simp)
            · rw [if_neg hkt] at hk
              exact htodoU k hk
          · intro k hk
            rw [show (⟨adelete s.todo table, (table, v0) :: s.done, rest⟩ :
              ManifestIterator).done = (table, v0) :: s.done from rfl, alookup_cons] at hk
            by_cases hkt : table = k
            · rw [← hkt]
              exact htabU
            · rw [if_neg hkt] at hk
              exact hdoneU k hk
          · intro k w hw
            rw [show (⟨adelete s.todo table, (table, v0) :: s.done, rest⟩ :
              ManifestIterator).todo = adelete s.todo table from rfl, alookup_adelete] at hw
            by_cases hkt : table = k
            · rw [if_pos hkt] at hw
              exact absurd hw (by simp)
            · rw [if_neg hkt] at hw
              exact hkeys k w hw
          · intro v hv
            have hveq : v0 = v := Option.some.inj hv
            rw [← hveq, hkeys table v0 hv0]
            exact htabU
        · rw [Next_push deps fuel s table rest ds0 hstk htodo hds0 hemp] at hr
          refine ih _ r ⟨?_, ?_, ?_⟩ ?_ hr
          · intro t ht
            rcases List.mem_append.mp ht with h1 | h1
            · rcases fold_out_spec s.done table ds0 s.todo [] t h1 with h2 | ⟨h2, _⟩
              · exact absurd h2 (List.not_mem_nil _)
              · exact hds0U t h2
            · rcases List.mem_cons.mp h1 with rfl | h2
              · exact htabU
              · exact hstkU t (by rw [hstk]; exact List.mem_cons_of_mem _ h2)
          · intro k hk
            obtain ⟨w, hw⟩ := Option.isSome_iff_exists.mp hk
            rcases fold_lookup_new s.done table ds0 s.todo [] k w hw with h1 | ⟨_, _, _, h1⟩
            · exact htodoU k (isSome_of_eq_some h1)
            · exact hds0U k h1
          · exact hdoneU
          · intro k w hw
            rcases fold_lookup_new s.done table ds0 s.todo [] k w hw with h1 | ⟨_, _, h1, _⟩
            · exact hkeys k w h1
            · rw [h1]
              rfl
      · rw [Next_skip deps fuel s table rest hstk htodo] at hr
        refine ih ⟨s.todo, s.done, rest⟩ r ⟨?_, htodoU, hdoneU⟩ hkeys hr
        intro t ht
        have ht' : t ∈ s.stack := by
          rw [hstk]
          exact List.mem_cons_of_mem _ ht
        exact hstkU t ht'

theorem length_filter_mono {α : Type} (l : List α) (p q : α → Bool)
    (hpq : ∀ a, q a = true → p a = true) :
    (l.filter q).length ≤ (l.filter p).length := by
  induction l with
  | nil => simp
  | cons a l ih =>
    by_cases hq : q a = true
    · rw [List.filter_cons_of_pos hq, List.filter_cons_of_pos (hpq a hq)]
      simpa using ih
    · rw [List.filter_cons_of_neg (by simpa using hq)]
      by_cases hp : p a = true
      · rw [List.filter_cons_of_pos hp]
        simp only [List.length_cons]
        omega
      · rw [List.filter_cons_of_neg (by simpa using hp)]
        exact ih

theorem length_filter_lt {α : Type} (l : List α) (p q : α → Bool)
    (hpq : ∀ a, q a = true → p a = true) (a : α) (ha : a ∈ l)
    (hpa : p a = true) (hqa : q a = false) :
    (l.filter q).length < (l.filter p).length := by
  induction l with
  | nil => exact absurd ha (List.not_mem_nil _)
  | cons b l ih =>
    rcases List.mem_cons.mp ha with rfl | hmem
    · rw [List.filter_cons_of_pos hpa, List.filter_cons_of_neg (by simp [hqa])]
      have := length_filter_mono l p q hpq
      simp only [List.length_cons]
      omega
    · by_cases hq : q b = true
      · rw [List.filter_cons_of_pos hq, List.filter_cons_of_pos (hpq b hq)]
        simp only [List.length_cons]
        exact Nat.succ_lt_succ (ih hmem)
      · rw [List.filter_cons_of_neg (by simpa using hq)]
        by_cases hp : p b = true
        · rw [List.filter_cons_of_pos hp]
          simp only [List.length_cons]
          have := ih hmem
          omega
        · rw [List.filter_cons_of_neg (by simpa using hp)]
          exact ih hmem

/-- Under a ranking of the dependency graph and a closed table universe,
the whole resolver run terminates successfully: some fuel suffices for
`runNext` to return an emitted sequence. -/
theorem runNext_term (deps : String → Except String (List String)) (m : Manifest)
    (h : String → Nat) (U : List String) (hrank : Ranked deps h) (hU : UClosed deps U) :
    ∀ (n : Nat) (s : ManifestIterator),
      IterInv m s → WithinU U s →
      (U.filter (fun t => (alookup s.done t).isNone)).length ≤ n →
      ∃ fuel seq sf, runNext deps fuel s = some (.ok (seq, sf)) := by
  intro n
  induction n with
  | zero =>
    intro s hinv hin hlen
    obtain ⟨fuel1, r, hr⟩ := Next_term deps h hrank s.stack s rfl
    have hkeys : TodoKeysOk s := by
      intro k v hv
      rw [hinv.1 k v hv]
      exact expectedItem_table m k
    obtain ⟨ov, s1, rfl, hin1, hkeys1, hovU⟩ := Next_withinU deps U hU fuel1 s r hin hkeys hr
    rcases ov with _ | v
    · refine ⟨fuel1 + 1, [], s1, ?_⟩
      exact runNext_end deps fuel1 s s1 (Next_mono deps fuel1 (fuel1+1) s _ hr (by omega))
    · obtain ⟨_, _, _, hsome⟩ := Next_ok_spec deps m fuel1 s (some v) s1 hinv hr
      obtain ⟨_, hvfresh, _, _⟩ := hsome v rfl
      have hmem : v.table ∈ U := hovU v rfl
      have : 0 < (U.filter (fun t => (alookup s.done t).isNone)).length := by
        have : v.table ∈ U.filter (fun t => (alookup s.done t).isNone) :=
          List.mem_filter.mpr ⟨hmem, by rw [hvfresh]; rfl⟩
        exact List.length_pos.mpr (fun hc => by rw [hc] at this; exact absurd this (List.not_mem_nil _))
      omega
  | succ n ih =>
    intro s hinv hin hlen
    obtain ⟨fuel1, r, hr⟩ := Next_term deps h hrank s.stack s rfl
    have hkeys : TodoKeysOk s := by
      intro k v hv
      rw [hinv.1 k v hv]
      exact expectedItem_table m k
    obtain ⟨ov, s1, rfl, hin1, hkeys1, hovU⟩ := Next_withinU deps U hU fuel1 s r hin hkeys hr
    rcases ov with _ | v
    · refine ⟨fuel1 + 1, [], s1, ?_⟩
      exact runNext_end deps fuel1 s s1 (Next_mono deps fuel1 (fuel1+1) s _ hr (by omega))
    · obtain ⟨hinv1, _, _, hsome⟩ := Next_ok_spec deps m fuel1 s (some v) s1 hinv hr
      obtain ⟨_, hvfresh, hdcons, _⟩ := hsome v rfl
      have hmemU : v.table ∈ U := hovU v rfl
      have hdec : (U.filter (fun t => (alookup s1.done t).isNone)).length <
          (U.filter (fun t => (alookup s.done t).isNone)).length := by
        apply length_filter_lt U _ _ ?_ v.table hmemU (by rw [hvfresh]; rfl)
        · rw [hdcons, alookup_cons, if_pos rfl]
          rfl
        · intro a hq
          rw [hdcons, alookup_cons] at hq
          by_cases hk : v.table = a
          · rw [if_pos hk] at hq
            exact absurd hq (by simp)
          · rw [if_neg hk] at hq
            exact hq
      obtain ⟨fuel2, seq2, sf, hrun2⟩ := ih s1 hinv1 hin1 (by omega)
      refine ⟨max (fuel1 + 1) (fuel2 + 1), v :: seq2, sf, ?_⟩
      obtain ⟨K, hK⟩ : ∃ K, max (fuel1 + 1) (fuel2 + 1) = K + 1 :=
        ⟨max (fuel1 + 1) (fuel2 + 1) - 1, by omega⟩
      rw [hK]
      rw [runNext_step deps K s s1 v (Next_mono deps fuel1 (K+1) s _ hr (by omega))]
      rw [runNext_mono deps fuel2 K s1 _ hrun2 (by omega)]

/-! ### Divergence on a two-table cycle -/

/-- From any state whose stack holds only the two mutually referencing
tables (both unresolved), `Next` makes no progress: each step re-pushes
the partner table in front and recurses, so no fuel suffices. -/
theorem cycle_diverges_aux (deps : String → Except String (List String))
    (a b : String) (hab : a ≠ b) (hda : deps a = .ok [b]) (hdb : deps b = .ok [a]) :
    ∀ (fuel : Nat) (s : ManifestIterator),
      (alookup s.todo a).isSome → (alookup s.todo b).isSome →
      s.stack ≠ [] → (∀ t, t ∈ s.stack → t = a ∨ t = b) →
      Next deps fuel s = none := by
  intro fuel
  induction fuel with
  | zero => intro s _ _ _ _; rfl
  | succ fuel ih =>
    intro s ha hb hne hmem
    rcases hstk : s.stack with _ | ⟨table, rest⟩
    · exact absurd hstk hne
    · have htab : table = a ∨ table = b :=
        hmem table (by rw [hstk]; exact List.mem_cons_self _ _)
    
      obtain ⟨other, hdt, hosome, hneq, hoab⟩ :
          ∃ o, deps table = .ok [o] ∧ (alookup s.todo o).isSome ∧ table ≠ o ∧ (o = a ∨ o = b) := by
        rcases htab with rfl | rfl
        · exact ⟨b, hda, hb, hab, Or.inr rfl⟩
        · exact ⟨a, hdb, ha, fun hc => hab hc.symm, Or.inl rfl⟩
      have htodo : (alookup s.todo table).isSome := by
        rcases htab with rfl | rfl
        · exact ha
        · exact hb
      have hT : depsStepTodo s.done s.todo other = s.todo := by
        unfold depsStepTodo
        rw [if_neg]
        simp only [Bool.and_eq_true, Option.isNone_iff_eq_none]
        intro hc
        rw [hc.1] at hosome
        exact absurd hosome (by simp)
      have hfold : [other].foldl (depsStep s.done table) (s.todo, []) = (s.todo, [other]) := by
        rw [List.foldl_cons, List.foldl_nil, depsStep_pair]
        have hD : depsStepOut s.done table s.todo [] other = [other] := by
          unfold depsStepOut
          rw [hT]
          rw [if_pos]
          · rfl
          · simp only [Bool.and_eq_true, decide_eq_true_eq]
            exact ⟨hosome, hneq⟩
        rw [hT, hD]
      have hemp : ¬ ([other].foldl (depsStep s.done table) (s.todo, [])).2.isEmpty := by
        rw [hfold]
        simp
      rw [Next_push deps fuel s table rest [other] hstk htodo hdt hemp]
      rw [hfold]
      apply ih ⟨s.todo, s.done, [other] ++ table :: rest⟩ ha hb (by simp)
      intro t ht
      rcases List.mem_append.mp ht with h1 | h1
      · have : t = other := by simpa using h1
        rw [this]
        exact hoab
      · rcases List.mem_cons.mp h1 with rfl | h1
        · exact htab
        · exact hmem t (by rw [hstk]; exact List.mem_cons_of_mem _ h1)

/-- Once `Next` signals end-of-sequence its returned state has an empty
stack (unconditionally, for any starting state). -/
theorem Next_end_stack_nil (deps : String → Except String (List String)) :
    ∀ (fuel : Nat) (s s' : ManifestIterator),
      Next deps fuel s = some (.ok (none, s')) → s'.stack = [] := by
  intro fuel
  induction fuel with
  | zero =>
    intro s s' hr
    exact absurd hr (by simp [Next])
  | succ fuel ih =>
    intro s s' hr
    rcases hstk : s.stack with _ | ⟨table, rest⟩
    · rw [Next_nil deps fuel s hstk] at hr
      obtain ⟨_, hs⟩ := Prod.mk.injEq .. ▸ (Except.ok.inj (Option.some.inj hr))
      rw [← hs]
      exact hstk
    · by_cases htodo : (alookup s.todo table).isSome
      · rcases hdeps : deps table with e | ds
        · rw [Next_err deps fuel s table rest e hstk htodo hdeps] at hr
          exact absurd hr (by simp)
        · by_cases hemp : (ds.foldl (depsStep s.done table) (s.todo, [])).2.isEmpty
          · rw [Next_emit deps fuel s table rest ds hstk htodo hdeps hemp] at hr
            simp only [Option.some.injEq, Except.ok.injEq, Prod.mk.injEq] at hr
            exact absurd hr.1 (by simp)
          · rw [Next_push deps fuel s table rest ds hstk htodo hdeps hemp] at hr
            exact ih _ s' hr
      · rw [Next_skip deps fuel s table rest hstk htodo] at hr
        exact ih _ s' hr

/-- In a sequence whose table names are pairwise distinct, filtering for
the name of a member returns exactly that member. -/
theorem filter_single_of_nodup :
    ∀ (seq : List ManifestItem) (n : String) (x : ManifestItem),
      (seq.map (fun v => v.table)).Nodup → x ∈ seq → x.table = n →
      seq.filter (fun v => decide (v.table = n)) = [x] := by
  intro seq
  induction seq with
  | nil =>
    intro n x _ hx _
    exact absurd hx (List.not_mem_nil _)
  | cons y t ih =>
    intro n x hnodup hx hxt
    rw [List.map_cons, List.nodup_cons] at hnodup
    obtain ⟨hy, hnodup_t⟩ := hnodup
    rcases List.mem_cons.mp hx with rfl | hx
    · rw [List.filter_cons_of_pos (by simpa using hxt)]
      have hnil : t.filter (fun v => decide (v.table = n)) = [] := by
        rw [List.filter_eq_nil_iff]
        intro v hv hc
        have hvn : v.table = n := by simpa using hc
        apply hy
        rw [hxt, ← hvn]
        exact List.mem_map.mpr ⟨v, hv, rfl⟩
      rw [hnil]
    · have hyn : ¬ (y.table = n) := by
        intro hc
        apply hy
        rw [hc, ← hxt]
        exact List.mem_map.mpr ⟨x, hx, rfl⟩
      rw [List.filter_cons_of_neg (by simpa using hyn)]
      exact ih n x hnodup_t hx hxt

/-! ### Dump-writer lemmas -/

theorem dumpLoop_err (db : DbOracle) (vars : List (String × String)) (fuel : Nat)
    (s : ManifestIterator) (e : String)
    (h : Next db.deps (fuel+1) s = some (.error e)) :
    dumpLoop db vars (fuel+1) s = some (.error e) := by
  rw [dumpLoop, h]

theorem dumpLoop_end (db : DbOracle) (vars : List (String × String)) (fuel : Nat)
    (s s1 : ManifestIterator) (h : Next db.deps (fuel+1) s = some (.ok (none, s1))) :
    dumpLoop db vars (fuel+1) s = some (.ok "") := by
  rw [dumpLoop, h]

theorem dumpLoop_entry_err (db : DbOracle) (vars : List (String × String)) (fuel : Nat)
    (s s1 : ManifestIterator) (v : ManifestItem) (e : String)
    (hnext : Next db.deps (fuel+1) s = some (.ok (some v, s1)))
    (hentry : dumpEntry db vars v = .error e) :
    dumpLoop db vars (fuel+1) s = some (.error e) := by
  have h0 : dumpLoop db vars (fuel+1) s =
      (match dumpEntry db vars v with
       | Except.error e => some (Except.error e)
       | Except.ok block =>
         match dumpLoop db vars fuel s1 with
         | none => none
         | some (Except.error e) => some (Except.error e)
         | some (Except.ok restOut) => some (Except.ok (block ++ restOut))) := by
    rw [dumpLoop, hnext]
  rw [h0, hentry]

theorem dumpLoop_entry_ok (db : DbOracle) (vars : List (String × String)) (fuel : Nat)
    (s s1 : ManifestIterator) (v : ManifestItem) (block : String)
    (hnext : Next db.deps (fuel+1) s = some (.ok (some v, s1)))
    (hentry : dumpEntry db vars v = .ok block) :
    dumpLoop db vars (fuel+1) s =
      (match dumpLoop db vars fuel s1 with
       | none => none
       | some (Except.error e) => some (Except.error e)
       | some (Except.ok restOut) => some (Except.ok (block ++ restOut))) := by
  have h0 : dumpLoop db vars (fuel+1) s =
      (match dumpEntry db vars v with
       | Except.error e => some (Except.error e)
       | Except.ok block2 =>
         match dumpLoop db vars fuel s1 with
         | none => none
         | some (Except.error e) => some (Except.error e)
         | some (Except.ok restOut) => some (Except.ok (block2 ++ restOut))) := by
    rw [dumpLoop, hnext]
  rw [h0, hentry]

theorem MakeDump_loop_err (db : DbOracle) (m : Manifest) (fuel : Nat) (e : String)
    (h : dumpLoop db m.vars fuel (NewManifestIterator m) = some (.error e)) :
    MakeDump db m fuel = some (.error e) := by
  rw [MakeDump, h]

theorem MakeDump_loop_ok (db : DbOracle) (m : Manifest) (fuel : Nat) (body : String)
    (h : dumpLoop db m.vars fuel (NewManifestIterator m) = some (.ok body)) :
    MakeDump db m fuel = some (.ok (BEGIN_DUMP ++ body ++ END_DUMP)) := by
  rw [MakeDump, h]

/-- The shape of a successfully emitted entry block: the column header,
the streamed bytes, the terminator, and the post-action statements. -/
theorem dumpEntry_ok_shape (db : DbOracle) (vars : List (String × String))
    (v : ManifestItem) (out : String) (h : dumpEntry db vars v = .ok out) :
    ∃ cols body,
      (if v.columns.isEmpty then db.cols v.table else Except.ok v.columns) = .ok cols ∧
      entryBody db vars v = .ok body ∧
      out = beginTableStr v.table cols ++ body ++ END_TABLE_DUMP
              ++ String.join (v.postActions.map sqlCmdStr) := by
  rw [dumpEntry] at h
  rcases hcols : (if v.columns.isEmpty then db.cols v.table else Except.ok v.columns) with e | cols
  · rw [hcols] at h
    exact absurd h (by simp)
  · rw [hcols] at h
    rcases hbody : entryBody db vars v with e | body
    · rw [hbody] at h
      exact absurd h (by simp)
    · rw [hbody] at h
      exact ⟨cols, body, rfl, rfl, (Except.ok.inj h).symm⟩

theorem dumpEntry_cols_err (db : DbOracle) (vars : List (String × String))
    (v : ManifestItem) (e : String) (hc : v.columns = [])
    (herr : db.cols v.table = .error e) : dumpEntry db vars v = .error e := by
  rw [dumpEntry]
  rw [if_pos (by rw [hc]; rfl), herr]

theorem entryBody_render_err (db : DbOracle) (vars : List (String × String))
    (v : ManifestItem) (e : String) (hq : v.query ≠ "")
    (herr : db.render v.query vars = .error e) : entryBody db vars v = .error e := by
  rw [entryBody, if_neg hq, herr]

theorem entryBody_copy_err (db : DbOracle) (vars : List (String × String))
    (v : ManifestItem) (e : String) (hq : v.query = "")
    (herr : db.copy ("COPY " ++ v.table ++ " TO STDOUT") = .error e) :
    entryBody db vars v = .error e := by
  rw [entryBody, if_pos hq, dumpTable, herr]

theorem dumpEntry_body_err (db : DbOracle) (vars : List (String × String))
    (v : ManifestItem) (e : String) (cols : List String)
    (hcols : (if v.columns.isEmpty then db.cols v.table else Except.ok v.columns) = .ok cols)
    (herr : entryBody db vars v = .error e) : dumpEntry db vars v = .error e := by
  rw [dumpEntry, hcols, herr]

theorem entryBody_query (db : DbOracle) (vars : List (String × String))
    (v : ManifestItem) (q : String) (hq : v.query ≠ "")
    (hrender : db.render v.query vars = .ok q) :
    entryBody db vars v = dumpTable db ("(" ++ q ++ ")") := by
  rw [entryBody, if_neg hq, hrender]

theorem dumpEntry_cols_irrelevant (db : DbOracle) (f : String → Except String (List String))
    (vars : List (String × String)) (v : ManifestItem) (hc : v.columns ≠ []) :
    dumpEntry ⟨db.deps, f, db.copy, db.render⟩ vars v = dumpEntry db vars v := by
  have hemp : v.columns.isEmpty = false := by
    rcases hcl : v.columns with _ | ⟨c, cs⟩
    · exact absurd hcl hc
    · rfl
  rw [dumpEntry, dumpEntry, if_neg (by rw [hemp]; simp), if_neg (by rw [hemp]; simp)]
  exact rfl

/-! ### The claims -/

/-- C1: For every manifest whose foreign-key dependency graph is acyclic
(witnessed by a ranking of the reported edges, over a closed universe of
tables on which the inspector succeeds), the resolver completes, and the
sequence of ManifestItems returned by successive calls to Next is a
valid topological order: for every dependency edge table→dep reported by
the schema inspector, dep is returned strictly before table. -/
theorem C1_topological_order (deps : String → Except String (List String)) (m : Manifest)
    (h : String → Nat) (U : List String)
    (hrank : Ranked deps h)
    (hroots : ∀ n, n ∈ manifestNames m → n ∈ U)
    (hU : UClosed deps U) :
    (∃ fuel seq sf, runNext deps fuel (NewManifestIterator m) = some (.ok (seq, sf))) ∧
    (∀ fuel seq sf, runNext deps fuel (NewManifestIterator m) = some (.ok (seq, sf)) →
      ∀ (j : Nat) (hj : j < seq.length) (ds : List String) (d : String),
        deps (seq.get ⟨j, hj⟩).table = .ok ds → d ∈ ds → d ≠ (seq.get ⟨j, hj⟩).table →
        ∃ (i : Nat) (hi : i < seq.length), i < j ∧ (seq.get ⟨i, hi⟩).table = d) := by
  constructor
  · have hwithin : WithinU U (NewManifestIterator m) := by
      refine ⟨?_, ?_, ?_⟩
      · intro t ht
        rw [NMI_stack] at ht
        exact hroots t ht
      · intro k hk
        rw [NMI_todo] at hk
        obtain ⟨it, hit⟩ := Option.isSome_iff_exists.mp hk
        have hmem := getLast?_mem hit
        exact hroots k (List.mem_map.mpr
          ⟨it, List.mem_of_mem_filter hmem, by simpa using List.of_mem_filter hmem⟩)
      · intro k hk
        rw [NMI_done] at hk
        exact absurd hk (by simp [alookup])
    exact runNext_term deps m h U hrank hU
      ((U.filter (fun t => (alookup (NewManifestIterator m).done t).isNone)).length)
      (NewManifestIterator m) (IterInv_init m) hwithin (le_refl _)
  · intro fuel seq sf hrun j hj ds d hds hd hdne
    obtain ⟨_, _, _, _, _, _, _, _, htopo, _⟩ :=
      runNext_ok_spec deps m fuel (NewManifestIterator m) seq sf (IterInv_init m) hrun
    rcases htopo j hj ds d hds hd hdne with hsome | hex
    · rw [NMI_done] at hsome
      exact absurd hsome (by simp [alookup])
    · exact hex

/-- C2 (counterexample): on the concrete two-table cycle A↔B the claim
fails — the resolver does not detect the cycle and reports no error:
`Next` returns no result within any step bound, i.e. the Go code loops
forever. -/
theorem C2_counterexample : NextDiverges cycDeps (NewManifestIterator cycManifest) := by
  intro fuel
  apply cycle_diverges_aux cycDeps "A" "B" (by decide) rfl rfl fuel
  · rfl
  · rfl
  · simp [NewManifestIterator, cycManifest, defaultItem]
  · intro t ht
    have hstk : (NewManifestIterator cycManifest).stack = ["A", "B"] := rfl
    rw [hstk] at ht
    simpa using ht

/-- C2 (amended): for every manifest listing exactly two mutually
referencing tables, the resolver does not detect the cycle and never
reports it: `Next` re-queues the two tables forever, returning neither a
result nor an error within any number of steps (the code has no
CycleError; detection is imposed only on reimplementations). -/
theorem C2_cycle_undetected (deps : String → Except String (List String)) (m : Manifest)
    (a b : String) (hab : a ≠ b) (hda : deps a = .ok [b]) (hdb : deps b = .ok [a])
    (hm : manifestNames m = [a, b]) :
    NextDiverges deps (NewManifestIterator m) := by
  intro fuel
  apply cycle_diverges_aux deps a b hab hda hdb fuel
  · rw [NMI_todo, expectedItem_mem_some m a (by rw [hm]; exact List.mem_cons_self _ _)]
    rfl
  · rw [NMI_todo, expectedItem_mem_some m b (by rw [hm]; simp)]
    rfl
  · rw [NMI_stack, hm]
    simp
  · intro t ht
    rw [NMI_stack, hm] at ht
    simpa using ht

/-- C3: every table name reachable through foreign-key edges from a
manifest table but absent from the manifest's tables list is returned
exactly once, as the synthetic default ManifestItem (empty query, empty
columns, empty post-actions). -/
theorem C3_synthetic_default_entries (deps : String → Except String (List String))
    (m : Manifest) (fuel : Nat) (seq : List ManifestItem) (sf : ManifestIterator)
    (hrun : runNext deps fuel (NewManifestIterator m) = some (.ok (seq, sf)))
    (n : String) (hreach : Reachable deps (manifestNames m) n)
    (hnot : n ∉ manifestNames m) :
    tableEntries seq n = [defaultItem n] := by
  obtain ⟨hinvf, _, htodof, _, hchar, hcont, _, hnodup, _, hclos⟩ :=
    runNext_ok_spec deps m fuel (NewManifestIterator m) seq sf (IterInv_init m) hrun
  have hdone : ∀ t, Reachable deps (manifestNames m) t → (alookup sf.done t).isSome := by
    intro t ht
    induction ht with
    | root t0 hmem =>
      rcases hinvf.2.2.2.1 t0 hmem with hcase | hcase
      · rw [htodof t0] at hcase
        exact absurd hcase (by simp)
      · exact hcase
    | step t0 ds d ht0 hds hd ih =>
      have h1 : t0 ∈ seq.map (fun v => v.table) := by
        rcases (hchar t0).mp ih with hcase | hcase
        · rw [NMI_done] at hcase
          exact absurd hcase (by simp [alookup])
        · exact hcase
      obtain ⟨v, hv, hvt⟩ := List.mem_map.mp h1
      obtain ⟨ds', hds', hds'done⟩ := hclos v hv
      rw [hvt] at hds'
      rw [hds'] at hds
      have hde : ds' = ds := Except.ok.inj hds
      subst hde
      exact hds'done d hd
  have h1 : n ∈ seq.map (fun v => v.table) := by
    rcases (hchar n).mp (hdone n hreach) with hcase | hcase
    · rw [NMI_done] at hcase
      exact absurd hcase (by simp [alookup])
    · exact hcase
  obtain ⟨x, hx, hxt⟩ := List.mem_map.mp h1
  have hxexp := hcont x hx
  rw [hxt, expectedItem_not_mem m n hnot] at hxexp
  show seq.filter (fun v => decide (v.table = n)) = [defaultItem n]
  rw [filter_single_of_nodup seq n x hnodup hx hxt, hxexp]

/-- C4: no table name appears more than once in the emitted sequence;
each name is in at most one of todo/done at any time, and is moved from
todo to done exactly once, at the call that returns it. -/
theorem C4_each_table_once (deps : String → Except String (List String)) (m : Manifest) :
    (∀ fuel seq sf, runNext deps fuel (NewManifestIterator m) = some (.ok (seq, sf)) →
      (seq.map (fun v => v.table)).Nodup) ∧
    (∀ fuel s r s' v, IterInv m s → Next deps fuel s = some (.ok (r, s')) → r = some v →
      alookup s.done v.table = none ∧ alookup s'.done v.table = some v ∧
      alookup s'.todo v.table = none ∧ DisjointTD s ∧ DisjointTD s') := by
  constructor
  · intro fuel seq sf hrun
    exact (runNext_ok_spec deps m fuel (NewManifestIterator m) seq sf
      (IterInv_init m) hrun).2.2.2.2.2.2.2.1
  · intro fuel s r s' v hinv hnext hr
    obtain ⟨hinv', _, _, hsome⟩ := Next_ok_spec deps m fuel s r s' hinv hnext
    obtain ⟨_, hfresh, hdcons, _⟩ := hsome v hr
    have hdone' : alookup s'.done v.table = some v := by
      rw [hdcons, alookup_cons, if_pos rfl]
    have hdisj : DisjointTD s' := hinv'.2.2.1
    have htodo' : alookup s'.todo v.table = none :=
      eq_none_of_not_isSome (fun hc => hdisj v.table hc (isSome_of_eq_some hdone'))
    exact ⟨hfresh, hdone', htodo', hinv.2.2.1, hdisj⟩

/-- C5: every successful MakeDump run writes the byte-literal preamble
first and the byte-literal postamble last, whatever happens in between
(including the empty table list, where the body is empty). -/
theorem C5_preamble_postamble (db : DbOracle) (m : Manifest) (fuel : Nat) (out : String)
    (h : MakeDump db m fuel = some (.ok out)) :
    ∃ body, out = BEGIN_DUMP ++ body ++ END_DUMP := by
  rw [MakeDump] at h
  rcases hl : dumpLoop db m.vars fuel (NewManifestIterator m) with _ | r
  · rw [hl] at h
    exact absurd h (by simp)
  · rcases r with e | body
    · rw [hl] at h
      exact absurd h (by simp)
    · rw [hl] at h
      exact ⟨body, (Except.ok.inj (Option.some.inj h)).symm⟩

/-- C6: the first failure at any stage aborts the run and is returned to
the caller unchanged: a failing dependency query aborts Next at once with
that error; a failing column lookup, template rendering, or row export
aborts the entry with that error; and MakeDump returns the resolver's or
the first entry stage's error as its own result, with no retry and no
recovery. -/
theorem C6_first_failure_propagates :
    (∀ (deps : String → Except String (List String)) (fuel : Nat) (s : ManifestIterator)
       (table : String) (rest : List String) (e : String),
       s.stack = table :: rest → (alookup s.todo table).isSome → deps table = .error e →
       Next deps (fuel+1) s = some (.error e)) ∧
    (∀ (db : DbOracle) (vars : List (String × String)) (v : ManifestItem) (e : String),
       v.columns = [] → db.cols v.table = .error e → dumpEntry db vars v = .error e) ∧
    (∀ (db : DbOracle) (vars : List (String × String)) (v : ManifestItem) (e : String)
       (cols : List String),
       (if v.columns.isEmpty then db.cols v.table else Except.ok v.columns) = .ok cols →
       v.query ≠ "" → db.render v.query vars = .error e → dumpEntry db vars v = .error e) ∧
    (∀ (db : DbOracle) (vars : List (String × String)) (v : ManifestItem) (e : String)
       (cols : List String),
       (if v.columns.isEmpty then db.cols v.table else Except.ok v.columns) = .ok cols →
       v.query = "" → db.copy ("COPY " ++ v.table ++ " TO STDOUT") = .error e →
       dumpEntry db vars v = .error e) ∧
    (∀ (db : DbOracle) (m : Manifest) (fuel : Nat) (e : String),
       Next db.deps (fuel+1) (NewManifestIterator m) = some (.error e) →
       MakeDump db m (fuel+1) = some (.error e)) ∧
    (∀ (db : DbOracle) (m : Manifest) (fuel : Nat) (v : ManifestItem)
       (s1 : ManifestIterator) (e : String),
       Next db.deps (fuel+1) (NewManifestIterator m) = some (.ok (some v, s1)) →
       dumpEntry db m.vars v = .error e →
       MakeDump db m (fuel+1) = some (.error e)) := by
  refine ⟨?_, ?_, ?_, ?_, ?_, ?_⟩
  · intro deps fuel s table rest e hstk htodo herr
    exact Next_err deps fuel s table rest e hstk htodo herr
  · intro db vars v e hc herr
    exact dumpEntry_cols_err db vars v e hc herr
  · intro db vars v e cols hcols hq herr
    exact dumpEntry_body_err db vars v e cols hcols (entryBody_render_err db vars v e hq herr)
  · intro db vars v e cols hcols hq herr
    exact dumpEntry_body_err db vars v e cols hcols (entryBody_copy_err db vars v e hq herr)
  · intro db m fuel e hnext
    exact MakeDump_loop_err db m (fuel+1) e (dumpLoop_err db m.vars fuel _ e hnext)
  · intro db m fuel v s1 e hnext hentry
    exact MakeDump_loop_err db m (fuel+1) e
      (dumpLoop_entry_err db m.vars fuel _ s1 v e hnext hentry)

/-- C7: for a manifest entry with a non-empty query, MakeDump substitutes
the manifest vars into the query template by name→value text substitution
(the templating capability, modelled from the spec as `mustacheRender`)
and exports the result wrapped as the derived relation `(query)`; on the
spec's example template and vars the rendered query is exactly
`SELECT * FROM users WHERE active`. -/
theorem C7_query_rendering :
    (mustacheRender "SELECT * FROM \x7b\x7bt\x7d\x7d WHERE active" [("t", "users")] =
      "SELECT * FROM users WHERE active") ∧
    (∀ (db : DbOracle) (vars : List (String × String)) (v : ManifestItem) (q : String),
      v.query ≠ "" → db.render v.query vars = .ok q →
      entryBody db vars v = dumpTable db ("(" ++ q ++ ")")) ∧
    (∀ (db : DbOracle) (vars : List (String × String)) (v : ManifestItem),
      RendersLikeMustache db → v.query ≠ "" →
      entryBody db vars v = dumpTable db ("(" ++ mustacheRender v.query vars ++ ")")) := by
  refine ⟨rfl, ?_, ?_⟩
  · intro db vars v q hq hrender
    exact entryBody_query db vars v q hq hrender
  · intro db vars v hdb hq
    exact entryBody_query db vars v (mustacheRender v.query vars) hq (hdb v.query vars)

/-- C8: for an entry with a non-empty explicit column list the emitted
data-block header lists exactly those columns, double-quoted, in declared
order, and is independent of the schema inspector's column oracle; for an
empty column list the header lists the columns the schema inspector
reports (its query returns live columns ordered by attribute number,
dropped columns excluded). -/
theorem C8_column_resolution :
    (∀ (db : DbOracle) (vars : List (String × String)) (v : ManifestItem) (out : String),
      v.columns ≠ [] → dumpEntry db vars v = .ok out →
      ∃ mid, out = beginTableStr v.table v.columns ++ mid) ∧
    (∀ (db : DbOracle) (f : String → Except String (List String))
       (vars : List (String × String)) (v : ManifestItem),
      v.columns ≠ [] →
      dumpEntry ⟨db.deps, f, db.copy, db.render⟩ vars v = dumpEntry db vars v) ∧
    (∀ (db : DbOracle) (vars : List (String × String)) (v : ManifestItem) (out : String)
       (cs : List String),
      v.columns = [] → db.cols v.table = .ok cs → dumpEntry db vars v = .ok out →
      ∃ mid, out = beginTableStr v.table cs ++ mid) := by
  refine ⟨?_, ?_, ?_⟩
  · intro db vars v out hc hok
    obtain ⟨cols, body, hcols, _, hout⟩ := dumpEntry_ok_shape db vars v out hok
    have hemp : v.columns.isEmpty = false := by
      rcases hcl : v.columns with _ | ⟨c, cs⟩
      · exact absurd hcl hc
      · rfl
    rw [if_neg (by rw [hemp]; simp)] at hcols
    have hce : cols = v.columns := (Except.ok.inj hcols).symm
    subst hce
    exact ⟨body ++ END_TABLE_DUMP ++ String.join (v.postActions.map sqlCmdStr), by
      rw [hout]
      simp [String.append_assoc]⟩
  · intro db f vars v hc
    exact dumpEntry_cols_irrelevant db f vars v hc
  · intro db vars v out cs hc hcs hok
    obtain ⟨cols, body, hcols, _, hout⟩ := dumpEntry_ok_shape db vars v out hok
    rw [if_pos (by rw [hc]; rfl), hcs] at hcols
    have hce : cols = cs := (Except.ok.inj hcols).symm
    subst hce
    exact ⟨body ++ END_TABLE_DUMP ++ String.join (v.postActions.map sqlCmdStr), by
      rw [hout]
      simp [String.append_assoc]⟩

/-- C9: when two manifest entries share a table name, the resolver's
keyed todo map holds the later entry (last-wins, silently), and a
completed run emits that table exactly once, with the later entry's
contents (`expectedItem` is the last manifest entry bearing the name). -/
theorem C9_duplicate_names_last_wins (deps : String → Except String (List String))
    (m : Manifest) (n : String) :
    alookup (NewManifestIterator m).todo n =
      (m.tables.filter (fun i => decide (i.table = n))).getLast? ∧
    (∀ fuel seq sf, runNext deps fuel (NewManifestIterator m) = some (.ok (seq, sf)) →
      n ∈ manifestNames m → tableEntries seq n = [expectedItem m n]) := by
  refine ⟨NMI_todo m n, ?_⟩
  intro fuel seq sf hrun hn
  obtain ⟨hinvf, _, htodof, _, hchar, hcont, _, hnodup, _, _⟩ :=
    runNext_ok_spec deps m fuel (NewManifestIterator m) seq sf (IterInv_init m) hrun
  have hdone : (alookup sf.done n).isSome := by
    rcases hinvf.2.2.2.1 n hn with hcase | hcase
    · rw [htodof n] at hcase
      exact absurd hcase (by simp)
    · exact hcase
  have h1 : n ∈ seq.map (fun v => v.table) := by
    rcases (hchar n).mp hdone with hcase | hcase
    · rw [NMI_done] at hcase
      exact absurd hcase (by simp [alookup])
    · exact hcase
  obtain ⟨x, hx, hxt⟩ := List.mem_map.mp h1
  have hxexp := hcont x hx
  rw [hxt] at hxexp
  show seq.filter (fun v => decide (v.table = n)) = [expectedItem m n]
  rw [filter_single_of_nodup seq n x hnodup hx hxt, hxexp]

/-- C10: once Next has returned the end-of-sequence signal, its returned
state has an empty pending stack, and every subsequent call returns
end-of-sequence with that very state unchanged. -/
theorem C10_exhaustion_stable (deps : String → Except String (List String)) (fuel : Nat)
    (s s' : ManifestIterator) (h : Next deps fuel s = some (.ok (none, s'))) :
    s'.stack = [] ∧ ∀ fuel', Next deps (fuel'+1) s' = some (.ok (none, s')) := by
  have hnil := Next_end_stack_nil deps fuel s s' h
  exact ⟨hnil, fun fuel' => Next_nil deps fuel' s' hnil⟩

/-! ### Witnesses: the claims' hypotheses hold on concrete inputs -/

/-- C1 witness: the schema `posts → users` with manifest `[posts]` is
ranked and closed, so the theorem applies to it. -/
theorem C1_witness :
    (∃ fuel seq sf, runNext exDeps fuel (NewManifestIterator exManifest) =
      some (.ok (seq, sf))) ∧
    (∀ fuel seq sf, runNext exDeps fuel (NewManifestIterator exManifest) =
        some (.ok (seq, sf)) →
      ∀ (j : Nat) (hj : j < seq.length) (ds : List String) (d : String),
        exDeps (seq.get ⟨j, hj⟩).table = .ok ds → d ∈ ds →
        d ≠ (seq.get ⟨j, hj⟩).table →
        ∃ (i : Nat) (hi : i < seq.length), i < j ∧ (seq.get ⟨i, hi⟩).table = d) := by
  apply C1_topological_order exDeps exManifest
    (fun t => if t = "posts" then 1 else 0) ["posts", "users"]
  · intro t ds d hds hd hdne
    by_cases ht : t = "posts"
    · rw [exDeps, if_pos ht] at hds
      have hde : ["users"] = ds := Except.ok.inj hds
      rw [← hde] at hd
      have hdu : d = "users" := by simpa using hd
      rw [ht, hdu]
      decide
    · rw [exDeps, if_neg ht] at hds
      have hde : ([] : List String) = ds := Except.ok.inj hds
      rw [← hde] at hd
      exact absurd hd (List.not_mem_nil _)
  · intro n hn
    have hn' : n = "posts" := by simpa [manifestNames, exManifest] using hn
    rw [hn']
    decide
  · intro t ht
    by_cases ht2 : t = "posts"
    · refine ⟨["users"], by rw [exDeps, if_pos ht2], ?_⟩
      intro d hd
      have : d = "users" := by simpa using hd
      rw [this]
      decide
    · refine ⟨[], by rw [exDeps, if_neg ht2], ?_⟩
      intro d hd
      exact absurd hd (List.not_mem_nil _)

/-- C2 witness: the amended theorem applies to the concrete cycle. -/
theorem C2_witness : Next cycDeps 7 (NewManifestIterator cycManifest) = none :=
  C2_cycle_undetected cycDeps cycManifest "A" "B" (by decide) rfl rfl rfl 7

/-- C3 witness: `users`, reachable from `posts` but absent from the
manifest, is emitted exactly once as the synthetic default entry. -/
theorem C3_witness :
    tableEntries [defaultItem "users", ⟨"posts", "q1", ["id"], ["a1"]⟩] "users" =
      [defaultItem "users"] := by
  apply C3_synthetic_default_entries exDeps exManifest 10
    [defaultItem "users", ⟨"posts", "q1", ["id"], ["a1"]⟩]
    ⟨[], [("posts", ⟨"posts", "q1", ["id"], ["a1"]⟩), ("users", defaultItem "users")], []⟩
    rfl "users"
  · exact Reachable.step "posts" ["users"] "users"
      (Reachable.root "posts" (by decide)) rfl (by decide)
  · decide

/-- C4 witness: on the concrete run no table repeats, and the single
emission moves `users` from todo to done. -/
theorem C4_witness :
    (([defaultItem "users", ⟨"posts", "q1", ["id"], ["a1"]⟩].map
      (fun v => v.table)).Nodup) ∧
    (alookup (NewManifestIterator exManifest).done (defaultItem "users").table = none ∧
     alookup (⟨[("posts", ⟨"posts", "q1", ["id"], ["a1"]⟩)],
        [("users", defaultItem "users")], ["posts"]⟩ : ManifestIterator).done
        (defaultItem "users").table = some (defaultItem "users") ∧
     alookup (⟨[("posts", ⟨"posts", "q1", ["id"], ["a1"]⟩)],
        [("users", defaultItem "users")], ["posts"]⟩ : ManifestIterator).todo
        (defaultItem "users").table = none ∧
     DisjointTD (NewManifestIterator exManifest) ∧
     DisjointTD (⟨[("posts", ⟨"posts", "q1", ["id"], ["a1"]⟩)],
        [("users", defaultItem "users")], ["posts"]⟩ : ManifestIterator)) :=
  ⟨(C4_each_table_once exDeps exManifest).1 10
      [defaultItem "users", ⟨"posts", "q1", ["id"], ["a1"]⟩]
      ⟨[], [("posts", ⟨"posts", "q1", ["id"], ["a1"]⟩), ("users", defaultItem "users")], []⟩
      rfl,
   (C4_each_table_once exDeps exManifest).2 10 (NewManifestIterator exManifest)
      (some (defaultItem "users"))
      ⟨[("posts", ⟨"posts", "q1", ["id"], ["a1"]⟩)], [("users", defaultItem "users")], ["posts"]⟩
      (defaultItem "users") (IterInv_init exManifest) rfl rfl⟩

/-- C5 witness: the empty manifest produces exactly preamble ++ postamble. -/
theorem C5_witness :
    MakeDump trivialDb ⟨[], []⟩ 1 = some (.ok (BEGIN_DUMP ++ "" ++ END_DUMP)) ∧
    ∃ body, BEGIN_DUMP ++ "" ++ END_DUMP = BEGIN_DUMP ++ body ++ END_DUMP :=
  ⟨rfl, C5_preamble_postamble trivialDb ⟨[], []⟩ 1 (BEGIN_DUMP ++ "" ++ END_DUMP) rfl⟩

/-- C6 witness: each failure stage, on a concrete input, aborts with the
stage's own error value. -/
theorem C6_witness :
    (Next (fun _ => Except.error "e1") 1
      ⟨[("t", defaultItem "t")], [], ["t"]⟩ = some (.error "e1")) ∧
    (dumpEntry ⟨fun _ => .ok [], fun _ => .error "e2", fun _ => .ok "", fun t _ => .ok t⟩
      [] (defaultItem "t") = .error "e2") ∧
    (dumpEntry ⟨fun _ => .ok [], fun _ => .ok [], fun _ => .ok "", fun _ _ => .error "e3"⟩
      [] ⟨"t", "q", ["c"], []⟩ = .error "e3") ∧
    (dumpEntry ⟨fun _ => .ok [], fun _ => .ok [], fun _ => .error "e4", fun t _ => .ok t⟩
      [] ⟨"t", "", ["c"], []⟩ = .error "e4") ∧
    (MakeDump ⟨fun _ => .error "e5", fun _ => .ok [], fun _ => .ok "", fun t _ => .ok t⟩
      ⟨[], [⟨"t", "", [], []⟩]⟩ 1 = some (.error "e5")) ∧
    (MakeDump ⟨fun _ => .ok [], fun _ => .error "e6", fun _ => .ok "", fun t _ => .ok t⟩
      ⟨[], [⟨"t", "", [], []⟩]⟩ 1 = some (.error "e6")) :=
  ⟨C6_first_failure_propagates.1 (fun _ => Except.error "e1") 0
      ⟨[("t", defaultItem "t")], [], ["t"]⟩ "t" [] "e1" rfl rfl rfl,
   C6_first_failure_propagates.2.1
      ⟨fun _ => .ok [], fun _ => .error "e2", fun _ => .ok "", fun t _ => .ok t⟩
      [] (defaultItem "t") "e2" rfl rfl,
   C6_first_failure_propagates.2.2.1
      ⟨fun _ => .ok [], fun _ => .ok [], fun _ => .ok "", fun _ _ => .error "e3"⟩
      [] ⟨"t", "q", ["c"], []⟩ "e3" ["c"] rfl (by decide) rfl,
   C6_first_failure_propagates.2.2.2.1
      ⟨fun _ => .ok [], fun _ => .ok [], fun _ => .error "e4", fun t _ => .ok t⟩
      [] ⟨"t", "", ["c"], []⟩ "e4" ["c"] rfl rfl rfl,
   C6_first_failure_propagates.2.2.2.2.1
      ⟨fun _ => .error "e5", fun _ => .ok [], fun _ => .ok "", fun t _ => .ok t⟩
      ⟨[], [⟨"t", "", [], []⟩]⟩ 0 "e5" rfl,
   C6_first_failure_propagates.2.2.2.2.2
      ⟨fun _ => .ok [], fun _ => .error "e6", fun _ => .ok "", fun t _ => .ok t⟩
      ⟨[], [⟨"t", "", [], []⟩]⟩ 0 ⟨"t", "", [], []⟩
      ⟨[], [("t", ⟨"t", "", [], []⟩)], []⟩ "e6" rfl rfl⟩

/-- C7 witness: on a concrete oracle the rendered query is wrapped as a
derived relation, and a mustache-behaved oracle renders the spec's
example. -/
theorem C7_witness :
    (entryBody ⟨fun _ => .ok [], fun _ => .ok [], fun _ => .ok "", fun _ _ => .ok "R"⟩
      [] ⟨"t", "q", [], []⟩ =
      dumpTable ⟨fun _ => .ok [], fun _ => .ok [], fun _ => .ok "", fun _ _ => .ok "R"⟩
        ("(" ++ "R" ++ ")")) ∧
    (entryBody ⟨fun _ => .ok [], fun _ => .ok [], fun _ => .ok "",
        fun t vs => .ok (mustacheRender t vs)⟩
      [("t", "users")] ⟨"users", "SELECT * FROM \x7b\x7bt\x7d\x7d WHERE active", [], []⟩ =
      dumpTable ⟨fun _ => .ok [], fun _ => .ok [], fun _ => .ok "",
        fun t vs => .ok (mustacheRender t vs)⟩
        ("(" ++ mustacheRender "SELECT * FROM \x7b\x7bt\x7d\x7d WHERE active"
          [("t", "users")] ++ ")")) :=
  ⟨C7_query_rendering.2.1
      ⟨fun _ => .ok [], fun _ => .ok [], fun _ => .ok "", fun _ _ => .ok "R"⟩
      [] ⟨"t", "q", [], []⟩ "R" (by decide) rfl,
   C7_query_rendering.2.2
      ⟨fun _ => .ok [], fun _ => .ok [], fun _ => .ok "",
        fun t vs => .ok (mustacheRender t vs)⟩
      [("t", "users")] ⟨"users", "SELECT * FROM \x7b\x7bt\x7d\x7d WHERE active", [], []⟩
      (fun t vs => rfl) (by decide)⟩

/-- C8 witness: explicit columns produce exactly their quoted header on a
concrete entry, independently of the column oracle; an empty column list
uses the inspector's columns. -/
theorem C8_witness :
    (∃ mid, "\n--\n-- Data for Name: T; Type: TABLE DATA\n--\n\nCOPY T (\"id\", \"name\") FROM stdin;\n\\.\n" =
      beginTableStr "T" ["id", "name"] ++ mid) ∧
    (dumpEntry ⟨trivialDb.deps, fun _ => .error "x", trivialDb.copy, trivialDb.render⟩
      [] ⟨"T", "", ["id", "name"], []⟩ = dumpEntry trivialDb [] ⟨"T", "", ["id", "name"], []⟩) ∧
    (∃ mid, dumpEntry ⟨fun _ => .ok [], fun _ => .ok ["a", "b"], fun _ => .ok "", fun t _ => .ok t⟩
        [] ⟨"T", "", [], []⟩ = .ok (beginTableStr "T" ["a", "b"] ++ mid)) := by
  refine ⟨?_, ?_, ?_⟩
  · exact C8_column_resolution.1 trivialDb [] ⟨"T", "", ["id", "name"], []⟩
      "\n--\n-- Data for Name: T; Type: TABLE DATA\n--\n\nCOPY T (\"id\", \"name\") FROM stdin;\n\\.\n"
      (by decide) rfl
  · exact C8_column_resolution.2.1 trivialDb (fun _ => .error "x") []
      ⟨"T", "", ["id", "name"], []⟩ (by decide)
  · obtain ⟨mid, hmid⟩ := C8_column_resolution.2.2
      ⟨fun _ => .ok [], fun _ => .ok ["a", "b"], fun _ => .ok "", fun t _ => .ok t⟩
      [] ⟨"T", "", [], []⟩
      ("\n--\n-- Data for Name: T; Type: TABLE DATA\n--\n\nCOPY T (\"a\", \"b\") FROM stdin;\n\\.\n")
      ["a", "b"] rfl rfl rfl
    exact ⟨mid, by rw [← hmid]; rfl⟩

/-- C9 witness: with two `users` entries the keyed map holds the later
one and the run emits it exactly once. -/
theorem C9_witness :
    (alookup (NewManifestIterator dupManifest).todo "users" =
      (dupManifest.tables.filter (fun i => decide (i.table = "users"))).getLast?) ∧
    (tableEntries [⟨"users", "new", ["b"], ["p"]⟩] "users" =
      [expectedItem dupManifest "users"]) :=
  ⟨(C9_duplicate_names_last_wins exDeps dupManifest "users").1,
   (C9_duplicate_names_last_wins exDeps dupManifest "users").2 10
      [⟨"users", "new", ["b"], ["p"]⟩]
      ⟨[], [("users", ⟨"users", "new", ["b"], ["p"]⟩)], []⟩ rfl (by decide)⟩

/-- C10 witness: after the end-of-sequence return on the empty state,
every later call returns end-of-sequence with the state unchanged. -/
theorem C10_witness :
    (⟨[], [], []⟩ : ManifestIterator).stack = [] ∧
    ∀ fuel', Next exDeps (fuel'+1) ⟨[], [], []⟩ = some (.ok (none, ⟨[], [], []⟩)) :=
  C10_exhaustion_stable exDeps 1 ⟨[], [], []⟩ ⟨[], [], []⟩ rfl
